import Mathlib

/-!
Verification development for a symbolic inference engine that encodes facts
as products of primes (a Goedel-style encoding) and answers queries by
backward chaining.  The definitions below are a shallow embedding of the
JavaScript source: the classes `PrimeCalculator`, `Fact`, `Rule`,
`ConceptEncoder`, `KnowledgeBase`, `ReasoningEngine`, `LanguageProcessor`
and `ELLM`.  Mutable object state (the encoder's bijection tables, the
reasoner's visited set) is threaded explicitly; loops that the source runs
on machine integers are modelled with fuel, where running out of fuel
(`none`) models nontermination of the source loop.  JS arrays indexed by
numbers are modelled as lists with explicit index get/set operations.
-/

set_option maxRecDepth 40000

/-! ### Association-list model of JavaScript `Map`

Only `get` / `set` / `has` are used by the source.  `set` on an existing
key updates the value in place (JS `Map` keeps the original insertion
position); on a missing key it appends. -/

def mapGet {α β : Type} [BEq α] : List (α × β) → α → Option β
  | [], _ => none
  | (k', v) :: rest, k => if k' == k then some v else mapGet rest k

def mapSet {α β : Type} [BEq α] : List (α × β) → α → β → List (α × β)
  | [], k, v => [(k, v)]
  | (k', v') :: rest, k, v =>
    if k' == k then (k', v) :: rest else (k', v') :: mapSet rest k v

/-! ### Indexed access on `List Bool`, modelling the JS boolean array

Reading out of range gives the JS `undefined`, which every consumer in the
source treats as falsy, hence `false`; writing out of range never happens
in the source (all writes are guarded by `j <= max`), so a no-op is an
adequate model. -/

def listGet : List Bool → Nat → Bool
  | [], _ => false
  | b :: _, 0 => b
  | _ :: rest, n + 1 => listGet rest n

def listSet : List Bool → Nat → Bool → List Bool
  | [], _, _ => []
  | _ :: rest, 0, v => v :: rest
  | b :: rest, n + 1, v => b :: listSet rest n v

/-! ### PrimeCalculator

`generatePrimes` is the sieve of Eratosthenes from the constructor
(`maxSize = 1000`).  The outer loop (`for i = 2; i*i <= max; i++`) and the
inner marking loop (`for j = i*i; j <= max; j += i`) both advance a
strictly increasing counter, so `max + 1` steps of fuel are always
enough. -/

def markMultiples (m i : Nat) : Nat → Nat → List Bool → List Bool
  | 0, _, s => s
  | fuel + 1, j, s =>
    if j ≤ m then markMultiples m i fuel (j + i) (listSet s j false) else s

def sieveLoop (m : Nat) : Nat → Nat → List Bool → List Bool
  | 0, _, s => s
  | fuel + 1, i, s =>
    if i * i ≤ m then
      sieveLoop m fuel (i + 1)
        (if listGet s i then markMultiples m i (m + 1) (i * i) s else s)
    else s

def generatePrimes (max : Nat) : List Nat :=
  let sieve0 := listSet (listSet (List.replicate (max + 1) true) 0 false) 1 false
  let sieve := sieveLoop max (max + 1) 2 sieve0
  (List.range (max + 1)).filter (fun i => listGet sieve i)

/-- The state of a `PrimeCalculator` instance.  The `primeCache` field of
the source only memoizes results of the pure `isPrime` and is semantically
transparent, so it is not modelled. -/
structure PrimeCalc where
  primes : List Nat
  deriving DecidableEq

def primeCalculatorNew : PrimeCalc := ⟨generatePrimes 1000⟩

/-- The trial-division loop of `isPrime` (`for i = 5; i*i <= n; i += 6`).
`i` grows by 6 each step, so `n` steps of fuel are always enough. -/
def isPrimeAux (n : Nat) : Nat → Nat → Bool
  | 0, _ => true
  | fuel + 1, i =>
    if i * i ≤ n then
      if n % i = 0 || n % (i + 2) = 0 then false else isPrimeAux n fuel (i + 6)
    else true

def isPrime (n : Nat) : Bool :=
  if n ≤ 1 then false
  else if n ≤ 3 then true
  else if n % 2 = 0 || n % 3 = 0 then false
  else isPrimeAux n n 5

/-- The search loop of `generateNextPrime` (`candidate++` until `isPrime`).
By Bertrand's postulate a prime occurs among `after+1 .. 2*(after+1)`, so
`after + 2` candidates always suffice for `after ≥ 1`; the source is only
ever called with `after = 997`, where the search stops at `1009`. -/
def nextPrimeSearch : Nat → Nat → Option Nat
  | 0, _ => none
  | fuel + 1, candidate =>
    if isPrime candidate then some candidate else nextPrimeSearch fuel (candidate + 1)

def generateNextPrime (after : Nat) : Nat :=
  (nextPrimeSearch (after + 2) (after + 1)).getD 0

/-- `getNthPrime(n)` is `this.primes[n] || this.generateNextPrime(last)`:
an out-of-range index (JS `undefined`, falsy) falls back to the single
next prime after the largest sieve prime.  Sieve entries are never `0`, so
the only falsy case is the out-of-range one, but the `p = 0` test keeps
the JS truthiness check exact. -/
def getNthPrime (pc : PrimeCalc) (n : Nat) : Nat :=
  match pc.primes.get? n with
  | some p =>
    if p = 0 then generateNextPrime ((pc.primes.get? (pc.primes.length - 1)).getD 0) else p
  | none => generateNextPrime ((pc.primes.get? (pc.primes.length - 1)).getD 0)

/-- The inner `while (remaining % p === 0)` loop of `factorize`.  Each
division shrinks `remaining`, so `remaining + 1` fuel suffices whenever
`remaining ≥ 1`; for `remaining = 0` the source loop never exits and the
model returns `none`. -/
def divideOut (p : Nat) : Nat → Nat → Option (List Nat × Nat)
  | 0, _ => none
  | fuel + 1, r =>
    if r % p = 0 then
      match divideOut p fuel (r / p) with
      | none => none
      | some (l, r') => some (p :: l, r')
    else some ([], r)

/-- The `for (const p of this.primes)` loop of `factorize` with its two
`break` conditions, returning the factors pushed so far and the final
`remaining`. -/
def factorizeGo : List Nat → Nat → Option (List Nat × Nat)
  | [], r => some ([], r)
  | p :: ps, r =>
    match divideOut p (r + 1) r with
    | none => none
    | some (l, r') =>
      if p * p > r' then some (l, r')
      else if r' = 1 then some (l, r')
      else
        match factorizeGo ps r' with
        | none => none
        | some (l2, rf) => some (l ++ l2, rf)

def factorize (pc : PrimeCalc) (n : Nat) : Option (List Nat) :=
  match factorizeGo pc.primes n with
  | none => none
  | some (l, r) => some (if r > 1 then l ++ [r] else l)

/-! ### Correctness of the sieve

We prove that `generatePrimes max` is exactly the list of primes up to
`max`, characterised by the executable trial-division test `primeCheck`,
and conclude the concrete value of the constructor's prime table. -/

/-- Tail-recursive bounded check that `x` has no divisor `d` with
`start <= d` and `d * d <= x`; `fuel >= x` makes the check complete. -/
def noDivisorFrom (x : Nat) : Nat → Nat → Bool
  | 0, _ => true
  | fuel + 1, d =>
    if d * d ≤ x then
      if x % d = 0 then false else noDivisorFrom x fuel (d + 1)
    else true

def primeCheck (x : Nat) : Bool :=
  if x ≤ 1 then false else noDivisorFrom x x 2

theorem noDivisorFrom_spec (x : Nat) :
    ∀ fuel d, 2 ≤ d → x ≤ fuel + d →
      (noDivisorFrom x fuel d = true ↔ ∀ e, d ≤ e → e * e ≤ x → ¬ e ∣ x) := by
  intro fuel
  induction fuel with
  | zero =>
    intro d hd2 hd
    simp only [noDivisorFrom, true_iff]
    intro e he hex
    nlinarith
  | succ fuel ih =>
    intro d hd2 hd
    simp only [noDivisorFrom]
    by_cases hdx : d * d ≤ x
    · rw [if_pos hdx]
      by_cases hmod : x % d = 0
      · rw [if_pos hmod]
        constructor
        · intro h; cases h
        · intro h
          exact absurd (Nat.dvd_of_mod_eq_zero hmod) (h d le_rfl hdx)
      · rw [if_neg hmod, ih (d + 1) (by omega) (by omega)]
        constructor
        · intro h e he hex hdvd
          rcases Nat.eq_or_lt_of_le he with rfl | hlt
          · exact hmod (Nat.mod_eq_zero_of_dvd hdvd)
          · exact h e hlt hex hdvd
        · intro h e he hex
          exact h e (by omega) hex
    · rw [if_neg hdx]
      constructor
      · intro _ e he hex
        nlinarith
      · intro _
        rfl

theorem primeCheck_iff (x : Nat) : primeCheck x = true ↔ Nat.Prime x := by
  unfold primeCheck
  by_cases hx : x ≤ 1
  · rw [if_pos hx]
    constructor
    · intro h; cases h
    · intro hp
      have := hp.two_le
      omega
  · rw [if_neg hx, noDivisorFrom_spec x x 2 le_rfl (by omega)]
    constructor
    · intro h
      by_contra hnp
      have hq := Nat.minFac_prime (n := x) (by omega)
      have hqd := Nat.minFac_dvd x
      have hqsq : Nat.minFac x ^ 2 ≤ x := Nat.minFac_sq_le_self (by omega) hnp
      refine h (Nat.minFac x) hq.two_le ?_ hqd
      rwa [pow_two] at hqsq
    · intro hp e he2 hesq hedvd
      rcases Nat.Prime.eq_one_or_self_of_dvd hp e hedvd with h1 | h2
      · omega
      · subst h2
        nlinarith [hp.two_le]

theorem listSet_length (s : List Bool) : ∀ n v, (listSet s n v).length = s.length := by
  induction s with
  | nil => intro n v; rfl
  | cons b rest ih =>
    intro n v
    cases n with
    | zero => rfl
    | succ n => simp [listSet, ih]

theorem listGet_listSet (s : List Bool) :
    ∀ n v x, listGet (listSet s n v) x =
      if x = n ∧ n < s.length then v else listGet s x := by
  induction s with
  | nil =>
    intro n v x
    simp [listSet, listGet]
  | cons b rest ih =>
    intro n v x
    cases n with
    | zero =>
      cases x with
      | zero => simp [listSet, listGet]
      | succ x => simp [listSet, listGet]
    | succ n =>
      cases x with
      | zero => simp [listSet, listGet]
      | succ x =>
        simp only [listSet, listGet, ih, List.length_cons]
        by_cases h : x = n ∧ n < rest.length
        · rw [if_pos h, if_pos ⟨by omega, by omega⟩]
        · rw [if_neg h, if_neg (by omega)]

theorem listGet_replicate (n x : Nat) (v : Bool) :
    listGet (List.replicate n v) x = if x < n then v else false := by
  induction n generalizing x with
  | zero => simp [listGet]
  | succ n ih =>
    cases x with
    | zero => simp [List.replicate, listGet]
    | succ x =>
      simp only [List.replicate, listGet, ih]
      by_cases h : x < n
      · rw [if_pos h, if_pos (by omega)]
      · rw [if_neg h, if_neg (by omega)]

theorem markMultiples_length (m i : Nat) :
    ∀ fuel j s, (markMultiples m i fuel j s).length = s.length := by
  intro fuel
  induction fuel with
  | zero => intro j s; rfl
  | succ fuel ih =>
    intro j s
    simp only [markMultiples]
    by_cases h : j ≤ m
    · rw [if_pos h, ih, listSet_length]
    · rw [if_neg h]


theorem markMultiples_get (m i : Nat) (hi : 1 ≤ i) :
    ∀ fuel j s, m + 1 ≤ fuel + j → s.length = m + 1 →
      ∀ x, listGet (markMultiples m i fuel j s) x =
        if j ≤ x ∧ x ≤ m ∧ i ∣ (x - j) then false else listGet s x := by
  intro fuel
  induction fuel with
  | zero =>
    intro j s hf hs x
    rw [if_neg (by rintro ⟨h1, h2, -⟩; omega)]
    rfl
  | succ fuel ih =>
    intro j s hf hs x
    simp only [markMultiples]
    by_cases hj : j ≤ m
    · rw [if_pos hj,
        ih (j + i) (listSet s j false) (by omega) (by rw [listSet_length]; exact hs),
        listGet_listSet]
      by_cases hx : x = j
      · have c1 : ¬(j + i ≤ x ∧ x ≤ m ∧ i ∣ (x - (j + i))) := by
          rintro ⟨h1, -, -⟩; omega
        have c2 : x = j ∧ j < s.length := ⟨hx, by omega⟩
        have c3 : j ≤ x ∧ x ≤ m ∧ i ∣ (x - j) := ⟨by omega, by omega, by
          subst hx; simp⟩
        rw [if_neg c1, if_pos c2, if_pos c3]
      · have c2 : ¬(x = j ∧ j < s.length) := fun h => hx h.1
        rw [if_neg c2]
        by_cases hc : j ≤ x ∧ x ≤ m ∧ i ∣ (x - j)
        · have hxj : j < x := lt_of_le_of_ne hc.1 (Ne.symm hx)
          have hge : i ≤ x - j := Nat.le_of_dvd (by omega) hc.2.2
          have c1 : j + i ≤ x ∧ x ≤ m ∧ i ∣ (x - (j + i)) := by
            refine ⟨by omega, hc.2.1, ?_⟩
            have h9 : x - (j + i) = (x - j) - i := by omega
            rw [h9]
            exact Nat.dvd_sub' hc.2.2 dvd_rfl
          rw [if_pos c1, if_pos hc]
        · have c1 : ¬(j + i ≤ x ∧ x ≤ m ∧ i ∣ (x - (j + i))) := by
            rintro ⟨h1, h2, h3⟩
            refine hc ⟨by omega, h2, ?_⟩
            have h9 : x - j = (x - (j + i)) + i := by omega
            rw [h9]
            exact Nat.dvd_add h3 dvd_rfl
          rw [if_neg c1, if_neg hc]
    · rw [if_neg hj, if_neg (by rintro ⟨h1, h2, -⟩; omega)]

/-- Invariant of the sieve's outer loop: after processing all `i < k`, a
cell `x ≤ m` is still `true` exactly when `x ≥ 2` and `x` has no proper
divisor `d` with `2 ≤ d < k`. -/
def SieveInv (m k : Nat) (s : List Bool) : Prop :=
  s.length = m + 1 ∧
  ∀ x, x ≤ m →
    (listGet s x = true ↔ (2 ≤ x ∧ ∀ d, 2 ≤ d → d < k → d ∣ x → d = x))

theorem sieveInv_init (m : Nat) :
    SieveInv m 2 (listSet (listSet (List.replicate (m + 1) true) 0 false) 1 false) := by
  refine ⟨by rw [listSet_length, listSet_length, List.length_replicate], ?_⟩
  intro x hx
  have hlen1 : (listSet (List.replicate (m + 1) true) 0 false).length = m + 1 := by
    rw [listSet_length, List.length_replicate]
  rw [listGet_listSet, hlen1, listGet_listSet, List.length_replicate, listGet_replicate]
  constructor
  · intro h
    refine ⟨?_, fun d hd2 hd1 _ => by omega⟩
    by_contra hlt
    have hx1 : x = 0 ∨ x = 1 := by omega
    rcases hx1 with rfl | rfl
    · rw [if_neg (by omega), if_pos ⟨rfl, by omega⟩] at h
      cases h
    · rw [if_pos ⟨rfl, by omega⟩] at h
      cases h
  · rintro ⟨hx2, -⟩
    rw [if_neg (by omega), if_neg (by omega), if_pos (by omega)]

theorem sieveInv_step (m k : Nat) (s : List Bool) (hk : 2 ≤ k) (hkm : k * k ≤ m)
    (h : SieveInv m k s) :
    SieveInv m (k + 1) (if listGet s k then markMultiples m k (m + 1) (k * k) s else s) := by
  obtain ⟨hlen, hinv⟩ := h
  have hkk : k ≤ k * k := Nat.le_mul_of_pos_left k (by omega)
  have hkle : k ≤ m := le_trans hkk hkm
  by_cases hs : listGet s k = true
  · rw [if_pos hs]
    obtain ⟨-, hnd⟩ := (hinv k hkle).mp hs
    refine ⟨by rw [markMultiples_length]; exact hlen, ?_⟩
    intro x hx
    rw [markMultiples_get m k (by omega) (m + 1) (k * k) s (by omega) hlen x]
    have htrans : k * k ≤ x → (k ∣ x - k * k ↔ k ∣ x) := by
      intro hge
      constructor
      · intro hd
        have hsum : x = (x - k * k) + k * k := by omega
        rw [hsum]
        exact Nat.dvd_add hd (Dvd.intro k rfl)
      · intro hd
        exact Nat.dvd_sub' hd (Dvd.intro k rfl)
    by_cases hC : k * k ≤ x ∧ x ≤ m ∧ k ∣ x - k * k
    · rw [if_pos hC]
      obtain ⟨hC1, -, hC3⟩ := hC
      have hdx : k ∣ x := (htrans hC1).mp hC3
      constructor
      · intro hfalse; cases hfalse
      · rintro ⟨hx2, hall⟩
        have h2k : 2 * k ≤ k * k := Nat.mul_le_mul_right k hk
        have := hall k (by omega) (by omega) hdx
        omega
    · rw [if_neg hC, hinv x hx]
      constructor
      · rintro ⟨hx2, hall⟩
        refine ⟨hx2, fun d hd2 hdk1 hdx => ?_⟩
        by_cases hdk : d < k
        · exact hall d hd2 hdk hdx
        · have hdk' : d = k := by omega
          subst hdk'
          by_contra hne
          obtain ⟨c, hc⟩ := hdx
          have hc0 : c ≠ 0 := by rintro rfl; omega
          have hc1 : c ≠ 1 := by rintro rfl; omega
          by_cases hck : c < d
          · have hcx : c ∣ x := ⟨d, by rw [hc]; ring⟩
            have hcex := hall c (by omega) hck hcx
            subst hcex
            have hx2' : 2 ≤ c := by omega
            nlinarith [hc]
          · have hxge : d * d ≤ x := by
              rw [hc]
              exact Nat.mul_le_mul_left d (by omega)
            exact hC ⟨hxge, hx, (htrans hxge).mpr ⟨c, hc⟩⟩
      · rintro ⟨hx2, hall⟩
        exact ⟨hx2, fun d hd2 hdk hdx => hall d hd2 (by omega) hdx⟩
  · rw [if_neg hs]
    refine ⟨hlen, ?_⟩
    intro x hx
    rw [hinv x hx]
    have hkcomp : ¬(2 ≤ k ∧ ∀ d, 2 ≤ d → d < k → d ∣ k → d = k) := by
      intro hcontra
      exact hs ((hinv k hkle).mpr hcontra)
    push_neg at hkcomp
    obtain ⟨d0, hd02, hd0k, hd0dvd, hd0ne⟩ := hkcomp hk
    constructor
    · rintro ⟨hx2, hall⟩
      refine ⟨hx2, fun d hd2 hdk1 hdx => ?_⟩
      by_cases hdk : d < k
      · exact hall d hd2 hdk hdx
      · have hdk' : d = k := by omega
        subst hdk'
        by_contra hne
        have hd0x : d0 ∣ x := dvd_trans hd0dvd hdx
        have hd0ex := hall d0 hd02 hd0k hd0x
        have hxk := Nat.le_of_dvd (by omega) hdx
        omega
    · rintro ⟨hx2, hall⟩
      exact ⟨hx2, fun d hd2 hdk hdx => hall d hd2 (by omega) hdx⟩

theorem sieveInv_final (m k : Nat) (s : List Bool) (hkm : m < k * k)
    (h : SieveInv m k s) : ∀ x, x ≤ m → (listGet s x = true ↔ Nat.Prime x) := by
  intro x hx
  rw [h.2 x hx]
  constructor
  · rintro ⟨hx2, hall⟩
    by_contra hnp
    have hq := Nat.minFac_prime (n := x) (by omega)
    have hqd := Nat.minFac_dvd x
    have hqsq : Nat.minFac x ^ 2 ≤ x := Nat.minFac_sq_le_self (by omega) hnp
    have hqne : Nat.minFac x ≠ x := by
      intro heq
      exact hnp (Nat.prime_def_minFac.mpr ⟨hx2, heq⟩)
    have hqk : Nat.minFac x < k := by
      by_contra hge
      have h1 : k * k ≤ Nat.minFac x * Nat.minFac x :=
        Nat.mul_le_mul (by omega) (by omega)
      have h2 : Nat.minFac x * Nat.minFac x ≤ x := by
        have := hqsq
        rwa [pow_two] at this
      omega
    exact hqne (hall _ hq.two_le hqk hqd)
  · intro hp
    refine ⟨hp.two_le, fun d hd2 _ hdx => ?_⟩
    rcases Nat.Prime.eq_one_or_self_of_dvd hp d hdx with h1 | h2
    · omega
    · exact h2

theorem sieveLoop_primes (m : Nat) :
    ∀ fuel k s, 2 ≤ k → SieveInv m k s → m + 2 ≤ fuel + k →
      ∀ x, x ≤ m → (listGet (sieveLoop m fuel k s) x = true ↔ Nat.Prime x) := by
  intro fuel
  induction fuel with
  | zero =>
    intro k s hk hinv hf x hx
    have hkk : k ≤ k * k := Nat.le_mul_of_pos_left k (by omega)
    exact sieveInv_final m k s (by omega) hinv x hx
  | succ fuel ih =>
    intro k s hk hinv hf x hx
    simp only [sieveLoop]
    by_cases hkk : k * k ≤ m
    · rw [if_pos hkk]
      exact ih (k + 1) _ (by omega) (sieveInv_step m k s hk hkk hinv) (by omega) x hx
    · rw [if_neg hkk]
      have hk2 : k ≤ k * k := Nat.le_mul_of_pos_left k (by omega)
      exact sieveInv_final m k s (by omega) hinv x hx

theorem generatePrimes_eq (m : Nat) :
    generatePrimes m = (List.range (m + 1)).filter primeCheck := by
  unfold generatePrimes
  apply List.filter_congr
  intro x hxmem
  have hx : x ≤ m := by
    have := List.mem_range.mp hxmem
    omega
  have h := sieveLoop_primes m (m + 1) 2 _ (by omega) (sieveInv_init m) (by omega) x hx
  rw [← primeCheck_iff] at h
  cases hb : listGet (sieveLoop m (m + 1) 2
      (listSet (listSet (List.replicate (m + 1) true) 0 false) 1 false)) x
  · cases hpc : primeCheck x
    · rfl
    · rw [hb, hpc] at h
      simp at h
  · cases hpc : primeCheck x
    · rw [hb, hpc] at h
      simp at h
    · rfl

/-- The concrete value of the sieve: the 168 primes up to 1000. -/
def sievePrimes : List Nat :=
  [2, 3, 5, 7, 11, 13, 17, 19, 23, 29, 31, 37, 41, 43, 47, 53, 59, 61, 67, 71,
   73, 79, 83, 89, 97, 101, 103, 107, 109, 113, 127, 131, 137, 139, 149, 151,
   157, 163, 167, 173, 179, 181, 191, 193, 197, 199, 211, 223, 227, 229, 233,
   239, 241, 251, 257, 263, 269, 271, 277, 281, 283, 293, 307, 311, 313, 317,
   331, 337, 347, 349, 353, 359, 367, 373, 379, 383, 389, 397, 401, 409, 419,
   421, 431, 433, 439, 443, 449, 457, 461, 463, 467, 479, 487, 491, 499, 503,
   509, 521, 523, 541, 547, 557, 563, 569, 571, 577, 587, 593, 599, 601, 607,
   613, 617, 619, 631, 641, 643, 647, 653, 659, 661, 673, 677, 683, 691, 701,
   709, 719, 727, 733, 739, 743, 751, 757, 761, 769, 773, 787, 797, 809, 811,
   821, 823, 827, 829, 839, 853, 857, 859, 863, 877, 881, 883, 887, 907, 911,
   919, 929, 937, 941, 947, 953, 967, 971, 977, 983, 991, 997]

set_option maxRecDepth 100000 in
set_option maxHeartbeats 2000000 in
theorem generatePrimes_1000 : generatePrimes 1000 = sievePrimes := by
  rw [generatePrimes_eq]
  decide

theorem primeCalculatorNew_eq : primeCalculatorNew = ⟨sievePrimes⟩ :=
  congrArg PrimeCalc.mk generatePrimes_1000

theorem sievePrimes_eq_filter : sievePrimes = (List.range 1001).filter primeCheck := by
  rw [← generatePrimes_eq]
  exact generatePrimes_1000.symm

theorem mem_sievePrimes_iff (p : Nat) : p ∈ sievePrimes ↔ p < 1001 ∧ Nat.Prime p := by
  rw [sievePrimes_eq_filter, List.mem_filter, List.mem_range, primeCheck_iff]

theorem sievePrimes_sorted : sievePrimes.Pairwise (· < ·) := by
  rw [sievePrimes_eq_filter]
  exact (List.pairwise_lt_range 1001).filter _

theorem sievePrimes_length : sievePrimes.length = 168 := by decide

theorem prime_le_997_of_lt_1001 (p : Nat) (hp : Nat.Prime p) (h : p < 1001) :
    p ≤ 997 := by
  by_contra hgt
  have hval : p = 998 ∨ p = 999 ∨ p = 1000 := by omega
  have hpc := (primeCheck_iff p).mpr hp
  rcases hval with rfl | rfl | rfl
  · exact absurd hpc (by decide)
  · exact absurd hpc (by decide)
  · exact absurd hpc (by decide)

theorem generateNextPrime_997 : generateNextPrime 997 = 1009 := by decide

theorem sievePrimes_get_prime (i : Nat) (h : i < sievePrimes.length) :
    Nat.Prime (sievePrimes.get ⟨i, h⟩) :=
  ((mem_sievePrimes_iff _).mp (List.get_mem sievePrimes i h)).2

theorem sievePrimes_get_le_997 (i : Nat) (h : i < sievePrimes.length) :
    sievePrimes.get ⟨i, h⟩ ≤ 997 := by
  have hm := (mem_sievePrimes_iff _).mp (List.get_mem sievePrimes i h)
  exact prime_le_997_of_lt_1001 _ hm.2 hm.1

/-- The complete behaviour of `getNthPrime` on the constructor's table:
for `n < 168` it is the `n`-th sieve prime, and for every `n ≥ 168` it is
the constant `generateNextPrime 997 = 1009`, regardless of `n`. -/
theorem getNthPrime_eq (n : Nat) :
    getNthPrime primeCalculatorNew n =
      if h : n < 168 then sievePrimes.get ⟨n, by rw [sievePrimes_length]; exact h⟩
      else 1009 := by
  rw [primeCalculatorNew_eq]
  unfold getNthPrime
  by_cases h : n < 168
  · rw [dif_pos h]
    have hlt : n < sievePrimes.length := by rw [sievePrimes_length]; exact h
    rw [List.get?_eq_get hlt]
    simp only
    have hp := sievePrimes_get_prime n hlt
    rw [if_neg (by have := hp.two_le; omega)]
  · rw [dif_neg h]
    have hnone : sievePrimes.get? n = none := by
      rw [List.get?_eq_none]
      rw [sievePrimes_length]
      omega
    rw [hnone]
    have hlast : sievePrimes.get? (sievePrimes.length - 1) = some 997 := by decide
    rw [hlast]
    exact generateNextPrime_997

/-! ### Correctness of `factorize` on inputs whose prime factors lie in the
sieve table.  The model also shows the failure modes: `factorize 0` never
terminates, and a remainder with no factor in the table is pushed verbatim
(possibly composite). -/

theorem divideOut_spec (p : Nat) (hp : 2 ≤ p) :
    ∀ fuel r, 1 ≤ r → r < fuel →
      ∃ k r', divideOut p fuel r = some (List.replicate k p, r') ∧
        r = p ^ k * r' ∧ ¬ p ∣ r' ∧ 1 ≤ r' := by
  intro fuel
  induction fuel with
  | zero => intro r hr hf; omega
  | succ fuel ih =>
    intro r hr hf
    by_cases hmod : r % p = 0
    · have hdvd : p ∣ r := Nat.dvd_of_mod_eq_zero hmod
      have hq1 : 1 ≤ r / p := Nat.one_le_div_iff (by omega) |>.mpr (Nat.le_of_dvd (by omega) hdvd)
      have hqlt : r / p < r := Nat.div_lt_self (by omega) (by omega)
      obtain ⟨k, r', heq, hfact, hnd, hr'⟩ := ih (r / p) hq1 (by omega)
      refine ⟨k + 1, r', ?_, ?_, hnd, hr'⟩
      · simp only [divideOut, if_pos hmod, heq, List.replicate_succ]
      · have hrp : r = p * (r / p) := (Nat.mul_div_cancel' hdvd).symm
        rw [hrp, hfact, pow_succ]
        ring
    · refine ⟨0, r, ?_, by simp, fun hdvd => hmod (Nat.mod_eq_zero_of_dvd hdvd), hr⟩
      simp only [divideOut, if_neg hmod, List.replicate]

theorem primeFactorsList_pow_mul (p k r0 : Nat) (hp : p.Prime) (hr0 : 1 ≤ r0)
    (hgt : ∀ q, Nat.Prime q → q ∣ r0 → p < q) :
    (p ^ k * r0).primeFactorsList = List.replicate k p ++ r0.primeFactorsList := by
  have hr0ne : r0 ≠ 0 := by omega
  have hprod : (List.replicate k p ++ r0.primeFactorsList).prod = p ^ k * r0 := by
    rw [List.prod_append, List.prod_replicate, Nat.prod_primeFactorsList hr0ne]
  have hallp : ∀ q ∈ List.replicate k p ++ r0.primeFactorsList, Nat.Prime q := by
    intro q hq
    rcases List.mem_append.mp hq with hmem | hmem
    · rw [List.eq_of_mem_replicate hmem]; exact hp
    · exact Nat.prime_of_mem_primeFactorsList hmem
  have hperm := Nat.primeFactorsList_unique hprod hallp
  have hsorted : (List.replicate k p ++ r0.primeFactorsList).Sorted (· ≤ ·) := by
    rw [List.Sorted, List.pairwise_append]
    refine ⟨?_, Nat.primeFactorsList_sorted r0, ?_⟩
    · rw [List.pairwise_replicate]
      right
      exact le_rfl
    · intro a ha b hb
      rw [List.eq_of_mem_replicate ha]
      have hbmem := (Nat.mem_primeFactorsList hr0ne).mp hb
      exact le_of_lt (hgt b hbmem.1 hbmem.2)
  exact (List.eq_of_perm_of_sorted hperm hsorted
    (Nat.primeFactorsList_sorted _)).symm

theorem factorizeGo_spec :
    ∀ (ps : List Nat) (r : Nat), 1 ≤ r →
      ps.Pairwise (· < ·) →
      (∀ q ∈ ps, Nat.Prime q) →
      (∀ q, Nat.Prime q → q ∣ r → q ∈ ps) →
      ∃ l rf, factorizeGo ps r = some (l, rf) ∧
        (if rf > 1 then l ++ [rf] else l) = r.primeFactorsList := by
  intro ps
  induction ps with
  | nil =>
    intro r hr _ _ hcomp
    have hr1 : r = 1 := by
      by_contra hne
      obtain ⟨q, hq, hqd⟩ := Nat.exists_prime_and_dvd hne
      exact absurd (hcomp q hq hqd) (List.not_mem_nil q)
    subst hr1
    exact ⟨[], 1, rfl, by simp [Nat.primeFactorsList_one]⟩
  | cons p ps ih =>
    intro r hr hsort hall hcomp
    have hp : Nat.Prime p := hall p (List.mem_cons_self p ps)
    have hp2 : 2 ≤ p := hp.two_le
    have hgt : ∀ q ∈ ps, p < q := (List.pairwise_cons.mp hsort).1
    obtain ⟨k, r0, hdo, hfact, hnd, hr0⟩ := divideOut_spec p hp2 (r + 1) r hr (by omega)
    have hr0dvd : r0 ∣ r := ⟨p ^ k, by rw [hfact]; ring⟩
    have hfac0 : ∀ q, Nat.Prime q → q ∣ r0 → q ∈ ps := by
      intro q hq hqd
      have hqr : q ∣ r := dvd_trans hqd hr0dvd
      rcases List.mem_cons.mp (hcomp q hq hqr) with h | h
      · exact absurd (h ▸ hqd) hnd
      · exact h
    have hgt0 : ∀ q, Nat.Prime q → q ∣ r0 → p < q := fun q hq hqd => hgt q (hfac0 q hq hqd)
    have hpfl : r.primeFactorsList = List.replicate k p ++ r0.primeFactorsList := by
      rw [hfact]
      exact primeFactorsList_pow_mul p k r0 hp hr0 hgt0
    simp only [factorizeGo, hdo]
    by_cases hbr : p * p > r0
    · rw [if_pos hbr]
      refine ⟨List.replicate k p, r0, rfl, ?_⟩
      by_cases hr01 : r0 > 1
      · rw [if_pos hr01]
        have hr0prime : Nat.Prime r0 := by
          by_contra hnp
          have hq := Nat.minFac_prime (n := r0) (by omega)
          have hqd := Nat.minFac_dvd r0
          have hqsq : Nat.minFac r0 ^ 2 ≤ r0 := Nat.minFac_sq_le_self (by omega) hnp
          have hqgt : p < Nat.minFac r0 := hgt0 _ hq hqd
          nlinarith [hqsq, hqgt]
        rw [hpfl, Nat.primeFactorsList_prime hr0prime]
      · rw [if_neg hr01]
        have hr01' : r0 = 1 := by omega
        subst hr01'
        rw [hpfl, Nat.primeFactorsList_one, List.append_nil]
    · rw [if_neg hbr]
      by_cases hr01 : r0 = 1
      · rw [if_pos hr01]
        subst hr01
        refine ⟨List.replicate k p, 1, rfl, ?_⟩
        rw [if_neg (by omega), hpfl, Nat.primeFactorsList_one, List.append_nil]
      · rw [if_neg hr01]
        obtain ⟨l2, rf, hgo2, hpush2⟩ :=
          ih r0 hr0 (List.pairwise_cons.mp hsort).2 (fun q hq => hall q (List.mem_cons_of_mem p hq)) hfac0
        rw [hgo2]
        refine ⟨List.replicate k p ++ l2, rf, rfl, ?_⟩
        by_cases hrf : rf > 1
        · rw [if_pos hrf]
          rw [if_pos hrf] at hpush2
          rw [hpfl, ← hpush2, List.append_assoc]
        · rw [if_neg hrf]
          rw [if_neg hrf] at hpush2
          rw [hpfl, ← hpush2]

/-- `factorize` is correct exactly on the inputs `n ≥ 1` all of whose prime
factors are at most 997 (inside the sieve). -/
theorem factorize_correct (n : Nat) (hn : 1 ≤ n)
    (hsmall : ∀ q, Nat.Prime q → q ∣ n → q ≤ 997) :
    factorize primeCalculatorNew n = some n.primeFactorsList := by
  rw [primeCalculatorNew_eq]
  unfold factorize
  obtain ⟨l, rf, hgo, hpush⟩ := factorizeGo_spec sievePrimes n hn sievePrimes_sorted
    (fun q hq => ((mem_sievePrimes_iff q).mp hq).2)
    (fun q hq hqd => (mem_sievePrimes_iff q).mpr ⟨by have := hsmall q hq hqd; omega, hq⟩)
  rw [hgo]
  show some (if rf > 1 then l ++ [rf] else l) = some n.primeFactorsList
  rw [hpush]

/-! ### Characterwise JS string operations

Lean's own `String.toLower`, `trim`, `splitOn` and `startsWith` iterate
over byte positions and do not reduce in the kernel, so the JS operations
are modelled characterwise over `String.data`; the semantics coincide. -/

/-- JS `toLowerCase` (ASCII case folding, as in `Char.toLower`). -/
def jsLower (s : String) : String := String.mk (s.data.map Char.toLower)

/-- JS `trim`. -/
def jsTrim (s : String) : String :=
  String.mk (((s.data.dropWhile Char.isWhitespace).reverse.dropWhile
    Char.isWhitespace).reverse)

/-- JS `startsWith`. -/
def jsStartsWith (s pre : String) : Bool := pre.data.isPrefixOf s.data

/-- Split at every non-overlapping occurrence of `sep` (assumed nonempty),
left to right, like JS `split` with a string separator.  One character is
consumed per step, so `length + 1` fuel always suffices. -/
def splitOnCore (sep : List Char) : Nat → List Char → List Char → List (List Char)
  | 0, s, cur => [cur ++ s]
  | fuel + 1, s, cur =>
    match s with
    | [] => [cur]
    | c :: rest =>
      if sep.isPrefixOf (c :: rest) then
        splitOnCore sep fuel ((c :: rest).drop sep.length) [] |>.cons cur
      else splitOnCore sep fuel rest (cur ++ [c])

def jsSplitOn (s sep : String) : List String :=
  (splitOnCore sep.data (s.data.length + 1) s.data []).map String.mk

namespace ELLM

/-! ### Facts and rules

`new Fact(s, p, o)` lowercases all three components; equality of facts is
componentwise. -/

structure Fact where
  subject : String
  predicate : String
  object : String
  deriving DecidableEq

def factNew (s p o : String) : Fact := ⟨jsLower s, jsLower p, jsLower o⟩

/-- `Fact.prototype.toString`. -/
def Fact.toString (f : Fact) : String :=
  f.subject ++ " " ++ f.predicate ++ " " ++ f.object

/-- The `type` tag of the two quantified-rule variants. -/
inductive QType where
  | universal
  | capability
  deriving DecidableEq

/-- Source `Rule` values: plain constructor plus the
`createUniversalRule` / `createCapabilityRule` variants. -/
inductive Rule where
  | standard (conditions : List Fact) (conclusion : Fact)
  | universal (category property : String)
  | capability (category capability : String)
  deriving DecidableEq

/-- The shape produced by `ConceptEncoder.encodeRule`: quantified rules keep
the category/property/predicate primes beside both encodings; standard rules
keep the list of condition encodings and the conclusion encoding. -/
inductive EncRule where
  | quant (rtype : QType) (variablePrime categoryPrime propertyPrime predicatePrime
      conditionEncoding conclusionEncoding : Nat)
  | standard (conditionEncodings : List Nat) (conclusionEncoding : Nat)
  deriving DecidableEq

/-! ### ConceptEncoder -/

structure Encoder where
  primeCalc : PrimeCalc
  conceptToPrime : List (String × Nat)
  primeToConceptCache : List (Nat × String)
  nextPrimeIndex : Nat
  variablePrime : Nat
  deriving DecidableEq

/-- `getPrime`: normalize, look up, otherwise assign
`getNthPrime(nextPrimeIndex++)` and record the mapping both ways. -/
def getPrime (e : Encoder) (concept : String) : Nat × Encoder :=
  let normalizedConcept := jsLower concept
  match mapGet e.conceptToPrime normalizedConcept with
  | some p => (p, e)
  | none =>
    let prime := getNthPrime e.primeCalc e.nextPrimeIndex
    (prime,
      { e with
        conceptToPrime := mapSet e.conceptToPrime normalizedConcept prime
        primeToConceptCache := mapSet e.primeToConceptCache prime normalizedConcept
        nextPrimeIndex := e.nextPrimeIndex + 1 })

/-- `getConceptName`: reverse lookup with the `Unknown(p)` fallback.  The JS
`||` also falls back when the stored name is the empty string (falsy). -/
def getConceptName (e : Encoder) (prime : Nat) : String :=
  match mapGet e.primeToConceptCache prime with
  | some s => if s.isEmpty then "Unknown(" ++ toString prime ++ ")" else s
  | none => "Unknown(" ++ toString prime ++ ")"

def encodeFact (e : Encoder) (fact : Fact) : Nat × Encoder :=
  let (subjectPrime, e1) := getPrime e fact.subject
  let (predicatePrime, e2) := getPrime e1 fact.predicate
  let (objectPrime, e3) := getPrime e2 fact.object
  (subjectPrime * predicatePrime * objectPrime, e3)

/-- The `rule.conditions.map(cond => this.encodeFact(cond))` of
`encodeRule`, threading the encoder left to right. -/
def encodeFactList (e : Encoder) : List Fact → List Nat × Encoder
  | [] => ([], e)
  | f :: fs =>
    let (n, e1) := encodeFact e f
    let (ns, e2) := encodeFactList e1 fs
    (n :: ns, e2)

/-- `encodeRule`, with `getPrime`/`encodeFact` calls in the source's
evaluation order.  Universal and capability rules carry the synthetic
condition `(_x_, is, category)` and conclusion `(_x_, is/can, property)`
built by `createUniversalRule`/`createCapabilityRule`. -/
def encodeRule (e : Encoder) : Rule → EncRule × Encoder
  | Rule.universal category property =>
    let (categoryPrime, e1) := getPrime e category
    let (propertyPrime, e2) := getPrime e1 property
    let (predicatePrime, e3) := getPrime e2 "is"
    let (conditionEncoding, e4) := encodeFact e3 (factNew "_x_" "is" category)
    let (conclusionEncoding, e5) := encodeFact e4 (factNew "_x_" "is" property)
    (EncRule.quant QType.universal e.variablePrime categoryPrime propertyPrime
      predicatePrime conditionEncoding conclusionEncoding, e5)
  | Rule.capability category capability =>
    let (categoryPrime, e1) := getPrime e category
    let (propertyPrime, e2) := getPrime e1 capability
    let (predicatePrime, e3) := getPrime e2 "can"
    let (conditionEncoding, e4) := encodeFact e3 (factNew "_x_" "is" category)
    let (conclusionEncoding, e5) := encodeFact e4 (factNew "_x_" "can" capability)
    (EncRule.quant QType.capability e.variablePrime categoryPrime propertyPrime
      predicatePrime conditionEncoding conclusionEncoding, e5)
  | Rule.standard conditions conclusion =>
    let (conditionEncodings, e1) := encodeFactList e conditions
    let (conclusionEncoding, e2) := encodeFact e1 conclusion
    (EncRule.standard conditionEncodings conclusionEncoding, e2)

/-- `decodeFact`: factorize; succeed only on exactly three factors, reverse
mapped in the (ascending) order `factorize` returns them. -/
def decodeFact (e : Encoder) (encoding : Nat) : Option Fact :=
  match factorize e.primeCalc encoding with
  | some [subjectPrime, predicatePrime, objectPrime] =>
    some (factNew (getConceptName e subjectPrime)
      (getConceptName e predicatePrime) (getConceptName e objectPrime))
  | _ => none

/-- The `ConceptEncoder` constructor: fresh tables, then
`this.variablePrime = this.getPrime("_variable_")`. -/
def conceptEncoderNew : Encoder :=
  let e0 : Encoder :=
    { primeCalc := primeCalculatorNew
      conceptToPrime := []
      primeToConceptCache := []
      nextPrimeIndex := 0
      variablePrime := 0 }
  let (vp, e1) := getPrime e0 "_variable_"
  { e1 with variablePrime := vp }

/-! ### KnowledgeBase -/

structure KnowledgeBase where
  factEncodings : List Nat
  rules : List EncRule
  facts : List Fact
  deriving DecidableEq

def knowledgeBaseNew : KnowledgeBase := ⟨[], [], []⟩

def addFact (e : Encoder) (kb : KnowledgeBase) (fact : Fact) : Encoder × KnowledgeBase :=
  let (encoding, e1) := encodeFact e fact
  (e1, { kb with
          factEncodings := kb.factEncodings ++ [encoding]
          facts := kb.facts ++ [fact] })

def addRule (e : Encoder) (kb : KnowledgeBase) (rule : Rule) : Encoder × KnowledgeBase :=
  let (encodedRule, e1) := encodeRule e rule
  (e1, { kb with rules := kb.rules ++ [encodedRule] })

/-! ### ReasoningEngine

`_deduce` mutates the shared encoder (by encoding the query) and the
per-call `visited` set; both are threaded through `DState` together with
the (never written) knowledge base.  Fuel bounds the recursion depth;
`none` means the fuel ran out. -/

structure DState where
  enc : Encoder
  kb : KnowledgeBase
  visited : List String
  deriving DecidableEq

/-- The universal/capability pass of `_deduce` (first `for` loop over
`kb.rules`).  `rec` is the recursive call into `_deduce`. -/
def quantLoop (rec : DState → Fact → Option (DState × Bool × String)) (q : Fact) :
    DState → List EncRule → Option (DState × Option String)
  | s, [] => some (s, none)
  | s, EncRule.standard _ _ :: rest => quantLoop rec q s rest
  | s, EncRule.quant rtype _ categoryPrime propertyPrime predicatePrime _ _ :: rest =>
    if q.predicate == getConceptName s.enc predicatePrime &&
        q.object == getConceptName s.enc propertyPrime then
      let membershipFact := factNew q.subject "is" (getConceptName s.enc categoryPrime)
      match rec s membershipFact with
      | none => none
      | some (s', true, subExplanation) =>
        some (s', some (subExplanation ++ ", and all " ++
          getConceptName s'.enc categoryPrime ++
          (if rtype = QType.universal then " are " else " can ") ++
          getConceptName s'.enc propertyPrime))
      | some (s', false, _) => quantLoop rec q s' rest
    else quantLoop rec q s rest

/-- The conditions loop of the standard-rule pass: left-to-right with
short-circuit on the first failing condition; a failing condition's
explanation is discarded. -/
def condLoop (rec : DState → Fact → Option (DState × Bool × String)) :
    DState → List Nat → List String → Option (DState × Option (List String))
  | s, [], acc => some (s, some acc)
  | s, conditionEncoding :: rest, acc =>
    match decodeFact s.enc conditionEncoding with
    | none => some (s, none)
    | some conditionFact =>
      match rec s conditionFact with
      | none => none
      | some (s', true, expl) => condLoop rec s' rest (acc ++ [expl])
      | some (s', false, _) => some (s', none)

/-- The standard-rule pass of `_deduce` (second `for` loop over
`kb.rules`). -/
def stdLoop (rec : DState → Fact → Option (DState × Bool × String))
    (q : Fact) (queryEncoding : Nat) :
    DState → List EncRule → Option (DState × Option String)
  | s, [] => some (s, none)
  | s, EncRule.quant _ _ _ _ _ _ _ :: rest => stdLoop rec q queryEncoding s rest
  | s, EncRule.standard conditionEncodings conclusionEncoding :: rest =>
    if conclusionEncoding == queryEncoding then
      match condLoop rec s conditionEncodings [] with
      | none => none
      | some (s', some explanations) =>
        some (s', some (String.intercalate ", " explanations ++
          ", which implies " ++ q.toString))
      | some (s', none) => stdLoop rec q queryEncoding s' rest
    else stdLoop rec q queryEncoding s rest

/-- `tryTransitiveReasoning`: scan stored facts sharing the query's subject
and predicate and recursively decide the bridging fact. -/
def transLoop (rec : DState → Fact → Option (DState × Bool × String)) (q : Fact) :
    DState → List Fact → Option (DState × Option String)
  | s, [] => some (s, none)
  | s, fact :: rest =>
    if fact.subject == q.subject && fact.predicate == q.predicate then
      let intermediateFact := factNew fact.object q.predicate q.object
      match rec s intermediateFact with
      | none => none
      | some (s', true, subExplanation) =>
        some (s', some (q.subject ++ " " ++ q.predicate ++ " " ++ fact.object ++
          ", and " ++ subExplanation))
      | some (s', false, _) => transLoop rec q s' rest
    else transLoop rec q s rest

/-- `_deduce`: encode the query (mutating the encoder), check the cycle
guard, check direct membership, run the quantified-rule pass, then the
standard-rule pass, then (for `is`/`part of`) the transitive fallback, and
finally fail with `Could not deduce`. -/
def deduceAux : Nat → DState → Fact → Option (DState × Bool × String)
  | 0, _, _ => none
  | fuel + 1, s, queryFact =>
    let (queryEncoding, e1) := encodeFact s.enc queryFact
    let s1 : DState := { s with enc := e1 }
    let queryKey := queryFact.toString
    if s1.visited.contains queryKey then
      some (s1, false, "Circular reasoning detected: " ++ queryKey)
    else
      let s2 : DState := { s1 with visited := queryKey :: s1.visited }
      if s2.kb.factEncodings.contains queryEncoding then
        some (s2, true, "Direct fact in knowledge base: " ++ queryKey)
      else
        match quantLoop (deduceAux fuel) queryFact s2 s2.kb.rules with
        | none => none
        | some (s3, some explanation) => some (s3, true, explanation)
        | some (s3, none) =>
          match stdLoop (deduceAux fuel) queryFact queryEncoding s3 s3.kb.rules with
          | none => none
          | some (s4, some explanation) => some (s4, true, explanation)
          | some (s4, none) =>
            if queryFact.predicate == "is" || queryFact.predicate == "part of" then
              match transLoop (deduceAux fuel) queryFact s4 s4.kb.facts with
              | none => none
              | some (s5, some explanation) => some (s5, true, explanation)
              | some (s5, none) => some (s5, false, "Could not deduce: " ++ queryKey)
            else some (s4, false, "Could not deduce: " ++ queryKey)

/-- `deduce`: reset the visited set, then run `_deduce`. -/
def deduce (fuel : Nat) (e : Encoder) (kb : KnowledgeBase) (queryFact : Fact) :
    Option (DState × Bool × String) :=
  deduceAux fuel ⟨e, kb, []⟩ queryFact


/-! ### LanguageProcessor (the parts `learn` needs) and `ELLM.learn`

`parseFact`/`parseRule` normalize with
`sentence.toLowerCase().replace(/[.?!,;]$/g, "").trim()`; the regex strips
one trailing punctuation character.  JS `includes`/2-way `split` pairs are
modelled by matching `splitOn` against a two-element list, and JS
`String.replace` with a plain-string pattern replaces only the first
occurrence. -/

def stripTerm (s : String) : String :=
  match s.data.getLast? with
  | some c =>
    if c = '.' ∨ c = '?' ∨ c = '!' ∨ c = ',' ∨ c = ';' then String.mk s.data.dropLast
    else s
  | none => s

def includesSub (s sub : String) : Bool := (jsSplitOn s sub).length != 1

def replaceFirst (s pat : String) : String :=
  match jsSplitOn s pat with
  | [] => s
  | [_] => s
  | a :: rest => a ++ String.intercalate pat rest

def parseFact (sentence : String) : Option Fact :=
  let text := jsTrim (stripTerm (jsLower sentence))
  (match jsSplitOn text " is " with
   | [subject, object] => some (factNew (jsTrim subject) "is" (jsTrim object))
   | _ => none) <|>
  (match jsSplitOn text " has " with
   | [subject, object] => some (factNew (jsTrim subject) "has" (jsTrim object))
   | _ => none) <|>
  (match jsSplitOn text " can " with
   | [subject, action] => some (factNew (jsTrim subject) "can" (jsTrim action))
   | _ => none) <|>
  (match jsSplitOn text " cannot " with
   | [subject, action] => some (factNew (jsTrim subject) "cannot" (jsTrim action))
   | _ => none) <|>
  (match jsSplitOn text " likes " with
   | [subject, object] => some (factNew (jsTrim subject) "likes" (jsTrim object))
   | _ => none) <|>
  (match jsSplitOn text " teaches " with
   | [subject, object] => some (factNew (jsTrim subject) "teaches" (jsTrim object))
   | _ => none) <|>
  (match jsSplitOn text " part of " with
   | [subject, object] =>
     some (factNew (replaceFirst (jsTrim subject) "the ") "part of"
       (replaceFirst (jsTrim object) "the "))
   | _ => none)

/-- The `for` loop over AND-separated condition parts: every part must
parse or the whole rule parse fails. -/
def parseFactList : List String → Option (List Fact)
  | [] => some []
  | part :: rest =>
    match parseFact part with
    | some c => (parseFactList rest).map (fun cs => c :: cs)
    | none => none

def parseRule (sentence : String) : Option Rule :=
  let text := jsTrim (stripTerm (jsLower sentence))
  (if jsStartsWith text "all " && includesSub text " are " then
    match jsSplitOn (replaceFirst text "all ") " are " with
    | [category, property] => some (Rule.universal (jsTrim category) (jsTrim property))
    | _ => none
   else none) <|>
  (if jsStartsWith text "all " && includesSub text " can " then
    match jsSplitOn (replaceFirst text "all ") " can " with
    | [category, capability] => some (Rule.capability (jsTrim category) (jsTrim capability))
    | _ => none
   else none) <|>
  (if jsStartsWith text "if " && (includesSub text " then " || includesSub text ", then ") then
    let parts :=
      if includesSub text ", then " then jsSplitOn (replaceFirst text "if ") ", then "
      else jsSplitOn (replaceFirst text "if ") " then "
    match parts with
    | [conditionText, conclusionText] =>
      let condText := jsTrim conditionText
      let conditions? : Option (List Fact) :=
        if includesSub condText " and " then parseFactList (jsSplitOn condText " and ")
        else (parseFact condText).map (fun c => [c])
      match conditions? with
      | none => none
      | some conditions =>
        match parseFact (jsTrim conclusionText) with
        | some conclusion => some (Rule.standard conditions conclusion)
        | none => none
    | _ => none
   else none)

/-- `Rule.prototype.toString` for the variants `learn` can build. -/
def Rule.toString : Rule → String
  | Rule.universal cat prop => "All " ++ cat ++ " are " ++ prop
  | Rule.capability cat cap => "All " ++ cat ++ " can " ++ cap
  | Rule.standard conditions conclusion =>
    match conditions with
    | [c] => "IF (" ++ c.toString ++ ") THEN (" ++ conclusion.toString ++ ")"
    | _ => "IF (" ++ String.intercalate " AND " (conditions.map Fact.toString) ++
        ") THEN (" ++ conclusion.toString ++ ")"

/-- The sentence splitter `text.split(/[.!?]\s*/)`: split at each
terminator, greedily skipping the following whitespace.  The `skipping`
flag is true exactly while inside the whitespace run that follows a
terminator, so the recursion stays structural on the character list. -/
def splitAux : List Char → Bool → List Char → List (List Char)
  | [], _, cur => [cur]
  | c :: rest, skipping, cur =>
    if c = '.' ∨ c = '!' ∨ c = '?' then cur :: splitAux rest true []
    else if skipping && c.isWhitespace then splitAux rest true cur
    else splitAux rest false (cur ++ [c])

def splitSentences (s : String) : List String :=
  (splitAux s.data false []).map String.mk

/-- The sentence loop of `ELLM.learn`: rule parse first, then fact parse,
else the `Failed to parse` line quoting the raw sentence. -/
def learnLoop (e : Encoder) (kb : KnowledgeBase) :
    List String → Encoder × KnowledgeBase × List String
  | [] => (e, kb, [])
  | sentence :: rest =>
    match parseRule sentence with
    | some rule =>
      let (e1, kb1) := addRule e kb rule
      let (e2, kb2, results) := learnLoop e1 kb1 rest
      (e2, kb2, ("Added rule: " ++ rule.toString) :: results)
    | none =>
      match parseFact sentence with
      | some fact =>
        let (e1, kb1) := addFact e kb fact
        let (e2, kb2, results) := learnLoop e1 kb1 rest
        (e2, kb2, ("Added fact: " ++ fact.toString) :: results)
      | none =>
        let (e2, kb2, results) := learnLoop e kb rest
        (e2, kb2, ("Failed to parse: \"" ++ sentence ++ "\"") :: results)

def learn (e : Encoder) (kb : KnowledgeBase) (text : String) :
    Encoder × KnowledgeBase × List String :=
  let sentences := (splitSentences text).filter (fun s => !(jsTrim s).isEmpty)
  learnLoop e kb sentences


end ELLM

/-! ### Association-list lemmas -/

theorem mapGet_mapSet_self {α β : Type} [BEq α] [LawfulBEq α]
    (m : List (α × β)) (k : α) (v : β) : mapGet (mapSet m k v) k = some v := by
  induction m with
  | nil => simp [mapSet, mapGet]
  | cons kv rest ih =>
    obtain ⟨k', v'⟩ := kv
    by_cases h : k' == k
    · simp [mapSet, mapGet, h]
    · simp only [mapSet, mapGet, h, if_neg]
      simpa [h] using ih

theorem mapGet_eq_none_iff {α β : Type} [BEq α] [LawfulBEq α]
    (m : List (α × β)) (k : α) :
    mapGet m k = none ↔ k ∉ m.map Prod.fst := by
  induction m with
  | nil => simp [mapGet]
  | cons kv rest ih =>
    obtain ⟨k', v'⟩ := kv
    by_cases h : k' == k
    · have hk : k' = k := eq_of_beq h
      subst hk
      simp [mapGet, h]
    · have hne : k' ≠ k := fun hh => by simp [hh] at h
      rw [List.map_cons, List.mem_cons]
      constructor
      · intro hnone
        simp only [mapGet, h, Bool.false_eq_true, if_neg] at hnone
        intro hmem
        rcases hmem with hmem | hmem
        · exact hne hmem.symm
        · exact (ih.mp hnone) hmem
      · intro hmem
        simp only [mapGet, h, Bool.false_eq_true, if_neg]
        exact ih.mpr (fun hm => hmem (Or.inr hm))

theorem mapSet_of_not_mem {α β : Type} [BEq α] [LawfulBEq α]
    (m : List (α × β)) (k : α) (v : β) (h : k ∉ m.map Prod.fst) :
    mapSet m k v = m ++ [(k, v)] := by
  induction m with
  | nil => rfl
  | cons kv rest ih =>
    obtain ⟨k', v'⟩ := kv
    simp only [List.map_cons, List.mem_cons] at h
    push_neg at h
    have hne : (k' == k) = false := by
      rw [beq_eq_false_iff_ne]
      exact fun hh => h.1 hh.symm
    simp [mapSet, hne, ih h.2]

theorem mapGet_mem {α β : Type} [BEq α] [LawfulBEq α]
    (m : List (α × β)) (k : α) (v : β) (h : mapGet m k = some v) : (k, v) ∈ m := by
  induction m with
  | nil => simp [mapGet] at h
  | cons kv rest ih =>
    obtain ⟨k', v'⟩ := kv
    by_cases hk : k' == k
    · have hk' : k' = k := eq_of_beq hk
      subst hk'
      simp only [mapGet, beq_self_eq_true, if_pos] at h
      cases h
      exact List.mem_cons_self _ _
    · simp only [mapGet, hk, Bool.false_eq_true, if_neg] at h
      exact List.mem_cons_of_mem _ (ih h)

namespace ELLM

/-! ### The fresh encoder, concretely -/

/-- The concrete state of `new ConceptEncoder()`: the `"_variable_"` token
has been registered with the first prime, 2. -/
def encoderInit : Encoder :=
  { primeCalc := ⟨sievePrimes⟩
    conceptToPrime := [("_variable_", 2)]
    primeToConceptCache := [(2, "_variable_")]
    nextPrimeIndex := 1
    variablePrime := 2 }

theorem getNthPrime_zero : getNthPrime primeCalculatorNew 0 = 2 := by
  rw [getNthPrime_eq]
  rfl

theorem conceptEncoderNew_eq : conceptEncoderNew = encoderInit := by
  unfold conceptEncoderNew getPrime
  simp only [mapGet, getNthPrime_zero]
  rw [primeCalculatorNew_eq]
  rfl


/-! ### Claim scenarios and theorems -/

/-- C4 store: the membership fact, the capability rule "all birds can fly",
and the literal `cannot` fact, added in that order to a fresh session. -/
def c4Step1 : Encoder × KnowledgeBase :=
  addFact conceptEncoderNew knowledgeBaseNew (factNew "penguin" "is" "birds")

def c4Step2 : Encoder × KnowledgeBase :=
  addRule c4Step1.1 c4Step1.2 (Rule.capability "birds" "fly")

def c4State : Encoder × KnowledgeBase :=
  addFact c4Step2.1 c4Step2.2 (factNew "penguin" "cannot" "fly")

/-- C4: with the membership fact `(penguin, is, birds)`, the capability rule
"all birds can fly" and the stored literal fact `(penguin, cannot, fly)`,
`deduce (penguin, can, fly)` returns `true` via the capability rule (its
explanation cites the membership fact and the rule); the stored `cannot`
fact sits in the store and does not suppress the rule-derived conclusion. -/
theorem c4_cannot_fact_does_not_suppress :
    (deduce 10 c4State.1 c4State.2 (factNew "penguin" "can" "fly")).map
      (fun r => (r.2.1, r.2.2)) =
      some (true,
        "Direct fact in knowledge base: penguin is birds, and all birds can fly") ∧
    factNew "penguin" "cannot" "fly" ∈ c4State.2.facts := by
  unfold c4State c4Step2 c4Step1
  rw [conceptEncoderNew_eq]
  decide

/-- C7 store: exactly the two `part of` facts. -/
def c7Step1 : Encoder × KnowledgeBase :=
  addFact conceptEncoderNew knowledgeBaseNew (factNew "engine" "part of" "car")

def c7State : Encoder × KnowledgeBase :=
  addFact c7Step1.1 c7Step1.2 (factNew "car" "part of" "transportation system")

/-- C7: with exactly the facts `(engine, part of, car)` and
`(car, part of, transportation system)` stored, `deduce` on
`(engine, part of, transportation system)` succeeds through the transitive
fallback, and the explanation chains both hops through `car`. -/
theorem c7_transitive_chain :
    c7State.2.facts =
      [factNew "engine" "part of" "car",
       factNew "car" "part of" "transportation system"] ∧
    c7State.2.rules = [] ∧
    (deduce 10 c7State.1 c7State.2
        (factNew "engine" "part of" "transportation system")).map
      (fun r => (r.2.1, r.2.2)) =
      some (true,
        "engine part of car, and Direct fact in knowledge base: car part of transportation system") := by
  unfold c7State c7Step1
  rw [conceptEncoderNew_eq]
  decide


/-- Register a list of concepts in order (repeated `getPrime` calls), the
way any sequence of operations first meets fresh concepts. -/
def registerAll (e : Encoder) : List String → Encoder
  | [] => e
  | c :: cs => registerAll (getPrime e c).2 cs

/-- 169 distinct concept names: together with the constructor's
`"_variable_"` they occupy prime indices 0 .. 169. -/
def names169 : List String := (List.range 169).map (fun i => "c" ++ toString i)

def c1Encoder : Encoder := registerAll conceptEncoderNew names169

/-- C1 counterexample: after 170 distinct concepts (the reserved
`"_variable_"` plus `c0 .. c168`), the two distinct concepts `c167` and
`c168` (prime indices 168 and 169) both hold the prime 1009, because
`getNthPrime` returns `generateNextPrime(997) = 1009` for every index
beyond the sieve.  The concept-to-prime table is not injective. -/
theorem c1_prime_collision_counterexample :
    mapGet c1Encoder.conceptToPrime "c167" = some 1009 ∧
    mapGet c1Encoder.conceptToPrime "c168" = some 1009 ∧
    ("c167" : String) ≠ "c168" := by
  unfold c1Encoder names169
  rw [conceptEncoderNew_eq]
  decide

/-- The encoder state of the C2 counterexample: a fresh session in which
the concept `a` has been registered first. -/
def c2Encoder : Encoder := (getPrime conceptEncoderNew "a").2

/-- C2 counterexample: with `a` registered before the fact is encoded, the
fact `(b, a, c)` — three distinct concepts, `a` already registered, `b` and
`c` newly registered by the encoding — encodes to `5 * 3 * 7 = 105`, but
decoding 105 rebuilds the components in ascending prime order and returns
`(a, b, c) ≠ (b, a, c)`: the round trip fails. -/
theorem c2_roundtrip_counterexample :
    decodeFact (encodeFact c2Encoder (factNew "b" "a" "c")).2
        (encodeFact c2Encoder (factNew "b" "a" "c")).1 =
      some (factNew "a" "b" "c") ∧
    factNew "a" "b" "c" ≠ factNew "b" "a" "c" := by
  unfold c2Encoder
  rw [conceptEncoderNew_eq]
  decide

/-- C3 store: exactly one self-referential standard rule whose single
condition equals its own conclusion. -/
def c3State : Encoder × KnowledgeBase :=
  addRule conceptEncoderNew knowledgeBaseNew
    (Rule.standard [factNew "a" "likes" "b"] (factNew "a" "likes" "b"))

/-- C3 counterexample: `deduce` on the self-referential rule's conclusion
terminates with `result: false`, but its explanation is
`"Could not deduce: a likes b"`, not the claimed
`"Circular reasoning detected: a likes b"` — the cycle guard fires inside
the condition evaluation and its explanation is discarded by the
conditions loop. -/
theorem c3_self_rule_counterexample :
    (deduce 10 c3State.1 c3State.2 (factNew "a" "likes" "b")).map
      (fun r => (r.2.1, r.2.2)) =
      some (false, "Could not deduce: a likes b") ∧
    ("Could not deduce: a likes b" : String) ≠
      "Circular reasoning detected: a likes b" := by
  unfold c3State
  rw [conceptEncoderNew_eq]
  decide

/-- C6 counterexample: `1022117 = 1009 * 1013` has no prime factor in the
sieve, so the whole remainder is pushed as a single composite "factor":
`factorize` does not return the prime factorization, and no extension of
the prime table takes place. -/
theorem c6_factorize_counterexample :
    factorize primeCalculatorNew 1022117 = some [1022117] ∧
    ¬ Nat.Prime 1022117 ∧
    [1022117] ≠ Nat.primeFactorsList 1022117 := by
  have hnp : ¬ Nat.Prime 1022117 := by
    have h : (1009 : ℕ) * 1013 = 1022117 := by norm_num
    exact h ▸ Nat.not_prime_mul (by norm_num) (by norm_num)
  refine ⟨?_, hnp, ?_⟩
  · rw [primeCalculatorNew_eq]
    decide
  · intro heq
    have hmem : (1022117 : ℕ) ∈ Nat.primeFactorsList 1022117 := by
      rw [← heq]
      exact List.mem_cons_self _ _
    exact hnp (Nat.prime_of_mem_primeFactorsList hmem)

/-- C8 counterexample: the `Failed to parse` line quotes the sentence in
its original form (`Xyzzy`), not the case-folded form the claim states. -/
theorem c8_failed_parse_counterexample :
    (learn conceptEncoderNew knowledgeBaseNew "Xyzzy plugh").2.2 =
      ["Failed to parse: \"Xyzzy plugh\""] ∧
    (["Failed to parse: \"Xyzzy plugh\""] : List String) ≠
      ["Failed to parse: \"xyzzy plugh\""] := by
  rw [conceptEncoderNew_eq]
  decide


/-- C6 amended: `factorize(n)` returns the ascending prime factorization of
`n` with multiplicity exactly when `n ≥ 1` and every prime factor of `n`
is at most 997 (inside the sieve; the prime sequence is never extended);
and `factorize 0` never terminates (modelled as `none`). -/
theorem c6_factorize_amended :
    (∀ n, 1 ≤ n → (∀ q, Nat.Prime q → q ∣ n → q ≤ 997) →
      factorize primeCalculatorNew n = some n.primeFactorsList) ∧
    factorize primeCalculatorNew 0 = none := by
  refine ⟨factorize_correct, ?_⟩
  rw [primeCalculatorNew_eq]
  decide

/-- Witness for C6 at `n = 105 = 3 * 5 * 7`. -/
theorem c6_factorize_witness :
    factorize primeCalculatorNew 105 = some (Nat.primeFactorsList 105) :=
  c6_factorize_amended.1 105 (by norm_num)
    (fun q _ hq => le_trans (Nat.le_of_dvd (by norm_num) hq) (by norm_num))


/-! ### C5: counting primes below the table entries

`Nat.count Nat.Prime p = k` together with `Nat.Prime p` is the claim-side
reading of "`p` is the `k`-th prime number (0-indexed)". -/

/-- Modelled from the spec: "the k-th prime number" (0-indexed) is the
prime with exactly `k` primes below it. -/
def IsKthPrime (k p : Nat) : Prop := Nat.Prime p ∧ Nat.count Nat.Prime p = k

theorem count_eq_length_filter (p : ℕ → Prop) [DecidablePred p] (L : List ℕ)
    (hnd : L.Nodup) (hall : ∀ x ∈ L, p x) (m : ℕ)
    (hcomp : ∀ x, x < m → p x → x ∈ L) :
    Nat.count p m = (L.filter (fun x => decide (x < m))).length := by
  rw [Nat.count, List.countP_eq_length_filter]
  refine List.Perm.length_eq ?_
  refine (List.perm_ext_iff_of_nodup ((List.nodup_range m).filter _) (hnd.filter _)).mpr ?_
  intro x
  rw [List.mem_filter, List.mem_filter, List.mem_range]
  constructor
  · rintro ⟨hlt, hp⟩
    have hpx : p x := of_decide_eq_true hp
    exact ⟨hcomp x hlt hpx, by simpa using hlt⟩
  · rintro ⟨hmem, hlt⟩
    have hlt' : x < m := by simpa using hlt
    exact ⟨hlt', decide_eq_true (hall x hmem)⟩

theorem filter_lt_get_eq_take (L : List ℕ) (hs : L.Pairwise (· < ·)) :
    ∀ k (hk : k < L.length),
      L.filter (fun x => decide (x < L.get ⟨k, hk⟩)) = L.take k := by
  induction L with
  | nil => intro k hk; cases hk
  | cons a L ih =>
    intro k hk
    obtain ⟨ha, hL⟩ := List.pairwise_cons.mp hs
    cases k with
    | zero =>
      simp only [List.get, List.take]
      rw [List.filter_cons]
      rw [show (decide (a < a)) = false by simp]
      simp only [Bool.false_eq_true, if_neg]
      refine List.filter_eq_nil_iff.mpr ?_
      intro x hx
      have := ha x hx
      simp
      omega
    | succ k =>
      have hk' : k < L.length := by simpa using hk
      simp only [List.get, List.take]
      rw [List.filter_cons]
      have halt : a < L.get ⟨k, hk'⟩ := ha _ (L.get_mem _ _)
      rw [show (decide (a < L.get ⟨k, hk'⟩)) = true by simpa using halt]
      simp only [if_pos]
      rw [ih hL k hk']

theorem count_prime_sieve_get (k : Nat) (hk : k < sievePrimes.length) :
    Nat.count Nat.Prime (sievePrimes.get ⟨k, hk⟩) = k := by
  have hnd : sievePrimes.Nodup := sievePrimes_sorted.imp ne_of_lt
  rw [count_eq_length_filter Nat.Prime sievePrimes hnd
    (fun x hx => ((mem_sievePrimes_iff x).mp hx).2) (sievePrimes.get ⟨k, hk⟩)
    (fun x hlt hp => (mem_sievePrimes_iff x).mpr
      ⟨by have := sievePrimes_get_le_997 k hk; omega, hp⟩)]
  rw [filter_lt_get_eq_take sievePrimes sievePrimes_sorted k hk]
  rw [List.length_take]
  omega

theorem count_prime_1009 : Nat.count Nat.Prime 1009 = 168 := by
  have hnd : sievePrimes.Nodup := sievePrimes_sorted.imp ne_of_lt
  have hnotprime : ∀ x, 998 ≤ x → x < 1009 → ¬ Nat.Prime x := by
    intro x h1 h2 hp
    have hpc := (primeCheck_iff x).mpr hp
    interval_cases x <;> exact absurd hpc (by decide)
  rw [count_eq_length_filter Nat.Prime sievePrimes hnd
    (fun x hx => ((mem_sievePrimes_iff x).mp hx).2) 1009
    (fun x hlt hp => (mem_sievePrimes_iff x).mpr
      ⟨by
        by_contra hge
        exact hnotprime x (by omega) (by omega) hp, hp⟩)]
  rw [List.filter_eq_self.mpr]
  · exact sievePrimes_length
  · intro x hx
    have := prime_le_997_of_lt_1001 x ((mem_sievePrimes_iff x).mp hx).2
      ((mem_sievePrimes_iff x).mp hx).1
    simp
    omega


/-- C5 counterexample: `getNthPrime 169` returns 1009 — the same value as
`getNthPrime 168` — and 1009 is not the 169-th prime (0-indexed): only 168
primes lie below it.  Beyond the sieve the fallback always restarts the
linear search just above 997 and caches nothing, so every index ≥ 168
collapses to 1009. -/
theorem c5_nth_prime_counterexample :
    getNthPrime primeCalculatorNew 169 = 1009 ∧
    ¬ IsKthPrime 169 (getNthPrime primeCalculatorNew 169) := by
  have h169 : getNthPrime primeCalculatorNew 169 = 1009 := by
    rw [getNthPrime_eq]
    rfl
  refine ⟨h169, ?_⟩
  rw [h169]
  rintro ⟨-, hcount⟩
  rw [count_prime_1009] at hcount
  omega

/-- C5 amended: `getNthPrime k` is the `k`-th prime precisely for
`k ≤ 168`; for every `k ≥ 168` it returns the constant
`generateNextPrime 997 = 1009` (the single next prime above the sieve),
regardless of `k`, so only `k = 168` of those is correct. -/
theorem c5_nth_prime_amended :
    (∀ k, k ≤ 168 → IsKthPrime k (getNthPrime primeCalculatorNew k)) ∧
    (∀ k, 168 ≤ k → getNthPrime primeCalculatorNew k = 1009) := by
  constructor
  · intro k hk
    by_cases hlt : k < 168
    · have hk' : k < sievePrimes.length := by rw [sievePrimes_length]; exact hlt
      rw [getNthPrime_eq]
      rw [dif_pos hlt]
      exact ⟨sievePrimes_get_prime k hk', count_prime_sieve_get k hk'⟩
    · have hk168 : k = 168 := by omega
      subst hk168
      rw [getNthPrime_eq]
      rw [dif_neg (by omega)]
      exact ⟨by norm_num, count_prime_1009⟩
  · intro k hk
    rw [getNthPrime_eq]
    rw [dif_neg (by omega)]

/-- Witness for C5 at `k = 5` (the 5-th prime, 13) and `k = 400` (constant
fallback 1009). -/
theorem c5_nth_prime_witness :
    IsKthPrime 5 (getNthPrime primeCalculatorNew 5) ∧
    getNthPrime primeCalculatorNew 400 = 1009 :=
  ⟨c5_nth_prime_amended.1 5 (by omega), c5_nth_prime_amended.2 400 (by omega)⟩


/-! ### C1: injectivity of the concept-to-prime table -/

/-- Unfolding `getPrime` on a concept already in the table. -/
theorem getPrime_found (e : Encoder) (c : String) (p : Nat)
    (hm : mapGet e.conceptToPrime (jsLower c) = some p) :
    getPrime e c = (p, e) := by
  simp only [getPrime, hm]

/-- Unfolding `getPrime` on a fresh concept. -/
theorem getPrime_new (e : Encoder) (c : String)
    (hm : mapGet e.conceptToPrime (jsLower c) = none) :
    getPrime e c =
      (getNthPrime e.primeCalc e.nextPrimeIndex,
       { e with
          conceptToPrime := mapSet e.conceptToPrime (jsLower c)
            (getNthPrime e.primeCalc e.nextPrimeIndex)
          primeToConceptCache := mapSet e.primeToConceptCache
            (getNthPrime e.primeCalc e.nextPrimeIndex) (jsLower c)
          nextPrimeIndex := e.nextPrimeIndex + 1 }) := by
  simp only [getPrime, hm]

/-- Invariant of reachable encoder states: the table's values are, in
order, `getNthPrime 0 .. getNthPrime (nextPrimeIndex - 1)`, and its keys
are pairwise distinct. -/
def EncoderOk (e : Encoder) : Prop :=
  e.primeCalc = primeCalculatorNew ∧
  e.conceptToPrime.map Prod.snd =
    (List.range e.nextPrimeIndex).map (getNthPrime primeCalculatorNew) ∧
  (e.conceptToPrime.map Prod.fst).Nodup

theorem encoderOk_new : EncoderOk conceptEncoderNew := by
  rw [conceptEncoderNew_eq]
  refine ⟨primeCalculatorNew_eq.symm, ?_, by decide⟩
  show [2] = (List.range 1).map (getNthPrime primeCalculatorNew)
  have h1 : List.range 1 = [0] := rfl
  rw [h1, List.map_cons, List.map_nil, getNthPrime_zero]

theorem encoderOk_getPrime (e : Encoder) (c : String) (h : EncoderOk e) :
    EncoderOk (getPrime e c).2 := by
  obtain ⟨hpc, hsnd, hfst⟩ := h
  cases hm : mapGet e.conceptToPrime (jsLower c) with
  | some p =>
    rw [getPrime_found e c p hm]
    exact ⟨hpc, hsnd, hfst⟩
  | none =>
    have hnotmem : jsLower c ∉ e.conceptToPrime.map Prod.fst :=
      (mapGet_eq_none_iff _ _).mp hm
    rw [getPrime_new e c hm]
    refine ⟨hpc, ?_, ?_⟩
    · show (mapSet e.conceptToPrime (jsLower c) _).map Prod.snd =
        (List.range (e.nextPrimeIndex + 1)).map (getNthPrime primeCalculatorNew)
      rw [mapSet_of_not_mem _ _ _ hnotmem, List.map_append, hsnd, List.range_succ,
        List.map_append, hpc]
      rfl
    · show ((mapSet e.conceptToPrime (jsLower c) _).map Prod.fst).Nodup
      rw [mapSet_of_not_mem _ _ _ hnotmem, List.map_append, List.nodup_append]
      refine ⟨hfst, by simp, ?_⟩
      intro a ha hb
      simp only [List.map_cons, List.map_nil, List.mem_singleton] at hb
      subst hb
      exact hnotmem ha

theorem encoderOk_registerAll (cs : List String) :
    ∀ e, EncoderOk e → EncoderOk (registerAll e cs) := by
  induction cs with
  | nil => intro e h; exact h
  | cons c cs ih =>
    intro e h
    exact ih _ (encoderOk_getPrime e c h)

theorem getNthPrime_inj_below_169 (i j : Nat) (hi : i < 169) (hj : j < 169)
    (hne : i ≠ j) :
    getNthPrime primeCalculatorNew i ≠ getNthPrime primeCalculatorNew j := by
  rw [getNthPrime_eq, getNthPrime_eq]
  have hnd : sievePrimes.Nodup := sievePrimes_sorted.imp ne_of_lt
  by_cases h1 : i < 168 <;> by_cases h2 : j < 168
  · rw [dif_pos h1, dif_pos h2]
    intro heq
    have hlen1 : i < sievePrimes.length := by rw [sievePrimes_length]; omega
    have hlen2 : j < sievePrimes.length := by rw [sievePrimes_length]; omega
    have hfin := (hnd.get_inj_iff (i := ⟨i, hlen1⟩) (j := ⟨j, hlen2⟩)).mp heq
    exact hne (congrArg Fin.val hfin)
  · rw [dif_pos h1, dif_neg h2]
    have hlen1 : i < sievePrimes.length := by rw [sievePrimes_length]; omega
    have := sievePrimes_get_le_997 i hlen1
    omega
  · rw [dif_neg h1, dif_pos h2]
    have hlen2 : j < sievePrimes.length := by rw [sievePrimes_length]; omega
    have := sievePrimes_get_le_997 j hlen2
    omega
  · omega

theorem get_congr {α : Type} (l1 l2 : List α) (h : l1 = l2) (i : Nat)
    (h1 : i < l1.length) (h2 : i < l2.length) : l1.get ⟨i, h1⟩ = l2.get ⟨i, h2⟩ := by
  subst h
  rfl

theorem encoderOk_lookup (e : Encoder) (h : EncoderOk e) (c : String) (p : Nat)
    (hc : mapGet e.conceptToPrime c = some p) :
    ∃ i : Fin e.conceptToPrime.length,
      e.conceptToPrime.get i = (c, p) ∧
      p = getNthPrime primeCalculatorNew i.val ∧
      i.val < e.nextPrimeIndex := by
  obtain ⟨-, hsnd, -⟩ := h
  have hlen : e.conceptToPrime.length = e.nextPrimeIndex := by
    have := congrArg List.length hsnd
    simpa using this
  obtain ⟨i, hget⟩ := List.mem_iff_get.mp (mapGet_mem _ _ _ hc)
  have hiL : i.val < e.conceptToPrime.length := i.isLt
  refine ⟨i, hget, ?_, by omega⟩
  have h1 : i.val < (e.conceptToPrime.map Prod.snd).length := by
    rw [List.length_map]
    exact hiL
  have h2 : i.val <
      ((List.range e.nextPrimeIndex).map (getNthPrime primeCalculatorNew)).length := by
    rw [List.length_map, List.length_range]
    omega
  have hsnd' := get_congr _ _ hsnd i.val h1 h2
  simp only [List.get_eq_getElem, List.getElem_map, List.getElem_range] at hsnd'
  have hgetE : e.conceptToPrime[i.val] = (c, p) := by
    rw [← List.get_eq_getElem]
    exact hget
  rw [hgetE] at hsnd'
  exact hsnd' 

/-- C1 amended: `getPrime` is idempotent (the second call returns the same
prime and leaves the state unchanged) — and, for any registration sequence,
the concept-to-prime table is injective as long as at most 169 prime
indices have been consumed (i.e. up to 169 concepts including the reserved
`"_variable_"`).  The counterexample shows injectivity failing at the
170th concept. -/
theorem c1_prime_injectivity_amended :
    (∀ (e : Encoder) (c : String), getPrime (getPrime e c).2 c = getPrime e c) ∧
    (∀ (cs : List String) (c1 c2 : String) (p1 p2 : Nat),
      (registerAll conceptEncoderNew cs).nextPrimeIndex ≤ 169 →
      mapGet (registerAll conceptEncoderNew cs).conceptToPrime c1 = some p1 →
      mapGet (registerAll conceptEncoderNew cs).conceptToPrime c2 = some p2 →
      c1 ≠ c2 → p1 ≠ p2) := by
  constructor
  · intro e c
    cases hm : mapGet e.conceptToPrime (jsLower c) with
    | some p =>
      rw [getPrime_found e c p hm]
      exact getPrime_found e c p hm
    | none =>
      rw [getPrime_new e c hm]
      exact getPrime_found _ c _ (mapGet_mapSet_self _ _ _)
  · intro cs c1 c2 p1 p2 hbound h1 h2 hne
    have hok : EncoderOk (registerAll conceptEncoderNew cs) :=
      encoderOk_registerAll cs _ encoderOk_new
    obtain ⟨i, higet, hip, hilt⟩ := encoderOk_lookup _ hok c1 p1 h1
    obtain ⟨j, hjget, hjp, hjlt⟩ := encoderOk_lookup _ hok c2 p2 h2
    have hij : i.val ≠ j.val := by
      intro heq
      have hfe : i = j := Fin.ext heq
      subst hfe
      rw [higet] at hjget
      exact hne (congrArg Prod.fst hjget)
    rw [hip, hjp]
    exact getNthPrime_inj_below_169 i.val j.val (by omega) (by omega) hij

/-- Witness for C1: idempotence at a fresh encoder and `"dog"`, and
injectivity for the two concepts `a`, `b` of the session that registers
`["a", "b"]`. -/
theorem c1_prime_injectivity_witness :
    getPrime (getPrime conceptEncoderNew "dog").2 "dog" =
      getPrime conceptEncoderNew "dog" ∧
    (3 : Nat) ≠ 5 := by
  refine ⟨c1_prime_injectivity_amended.1 conceptEncoderNew "dog", ?_⟩
  refine c1_prime_injectivity_amended.2 ["a", "b"] "a" "b" 3 5 ?_ ?_ ?_ ?_
  · rw [conceptEncoderNew_eq]; decide
  · rw [conceptEncoderNew_eq]; decide
  · rw [conceptEncoderNew_eq]; decide
  · decide


/-! ### Step lemmas for the `_deduce` loops -/

/-- `quantLoop` on an empty rule list yields no explanation. -/
theorem quantLoop_nil (rec : DState → Fact → Option (DState × Bool × String))
    (q : Fact) (s : DState) : quantLoop rec q s [] = some (s, none) := rfl

/-- `quantLoop` skips standard rules. -/
theorem quantLoop_std (rec : DState → Fact → Option (DState × Bool × String))
    (q : Fact) (s : DState) (ces : List Nat) (ce : Nat) (rest : List EncRule) :
    quantLoop rec q s (EncRule.standard ces ce :: rest) = quantLoop rec q s rest := rfl

/-- `stdLoop` on an empty rule list yields no explanation. -/
theorem stdLoop_nil (rec : DState → Fact → Option (DState × Bool × String))
    (q : Fact) (qe : Nat) (s : DState) : stdLoop rec q qe s [] = some (s, none) := rfl

/-- `stdLoop` on a standard rule whose conclusion encoding matches the
query encoding enters the conditions loop. -/
theorem stdLoop_std_match (rec : DState → Fact → Option (DState × Bool × String))
    (q : Fact) (qe : Nat) (s : DState) (ces : List Nat) (rest : List EncRule) :
    stdLoop rec q qe s (EncRule.standard ces qe :: rest) =
      match condLoop rec s ces [] with
      | none => none
      | some (s', some explanations) =>
        some (s', some (String.intercalate ", " explanations ++
          ", which implies " ++ q.toString))
      | some (s', none) => stdLoop rec q qe s' rest := by
  simp only [stdLoop, beq_self_eq_true, if_true]

theorem condLoop_nil (rec : DState → Fact → Option (DState × Bool × String))
    (s : DState) (acc : List String) : condLoop rec s [] acc = some (s, some acc) := rfl

/-- One step of the conditions loop when the condition decodes. -/
theorem condLoop_cons_some (rec : DState → Fact → Option (DState × Bool × String))
    (s : DState) (ce : Nat) (rest : List Nat) (acc : List String) (cf : Fact)
    (hdec : decodeFact s.enc ce = some cf) :
    condLoop rec s (ce :: rest) acc =
      match rec s cf with
      | none => none
      | some (s', true, expl) => condLoop rec s' rest (acc ++ [expl])
      | some (s', false, _) => some (s', none) := by
  simp only [condLoop, hdec]

theorem transLoop_nil (rec : DState → Fact → Option (DState × Bool × String))
    (q : Fact) (s : DState) : transLoop rec q s [] = some (s, none) := rfl

/-! ### C2, amended -/

/-- The prime factor list of a product of three ascending primes. -/
theorem primeFactorsList_three (p1 p2 p3 : Nat)
    (h1 : Nat.Prime p1) (h2 : Nat.Prime p2) (h3 : Nat.Prime p3)
    (h12 : p1 ≤ p2) (h23 : p2 ≤ p3) :
    (p1 * p2 * p3).primeFactorsList = [p1, p2, p3] := by
  have hprod : ([p1, p2, p3] : List Nat).prod = p1 * p2 * p3 := by
    simp [List.prod_cons, mul_assoc]
  have hall : ∀ q ∈ ([p1, p2, p3] : List Nat), Nat.Prime q := by
    intro q hq
    simp only [List.mem_cons, List.not_mem_nil, or_false] at hq
    rcases hq with rfl | rfl | rfl
    · exact h1
    · exact h2
    · exact h3
  have hperm := Nat.primeFactorsList_unique hprod hall
  have hsorted : ([p1, p2, p3] : List Nat).Sorted (· ≤ ·) := by
    rw [List.sorted_cons, List.sorted_cons]
    refine ⟨?_, ?_, List.sorted_singleton _⟩
    · intro b hb
      simp only [List.mem_cons, List.not_mem_nil, or_false] at hb
      rcases hb with rfl | rfl
      · exact h12
      · exact le_trans h12 h23
    · intro b hb
      simp only [List.mem_cons, List.not_mem_nil, or_false] at hb
      rcases hb with rfl
      exact h23
  exact (List.eq_of_perm_of_sorted hperm hsorted (Nat.primeFactorsList_sorted _)).symm

/-- C2 (amended): the encode/decode round trip reconstructs the fact
exactly when the three components are registered, normalized, nonempty
concepts whose primes are in strictly ascending order within the sieve
range; the encoder is left unchanged. -/
theorem c2_roundtrip_amended (e : Encoder) (a b c : String) (p1 p2 p3 : Nat)
    (hpc : e.primeCalc = primeCalculatorNew)
    (hla : jsLower a = a) (hlb : jsLower b = b) (hlc : jsLower c = c)
    (hma : mapGet e.conceptToPrime a = some p1)
    (hmb : mapGet e.conceptToPrime b = some p2)
    (hmc : mapGet e.conceptToPrime c = some p3)
    (hra : mapGet e.primeToConceptCache p1 = some a)
    (hrb : mapGet e.primeToConceptCache p2 = some b)
    (hrc : mapGet e.primeToConceptCache p3 = some c)
    (hae : a.isEmpty = false) (hbe : b.isEmpty = false) (hce : c.isEmpty = false)
    (h1 : Nat.Prime p1) (h2 : Nat.Prime p2) (h3 : Nat.Prime p3)
    (h12 : p1 < p2) (h23 : p2 < p3) (h997 : p3 ≤ 997) :
    encodeFact e ⟨a, b, c⟩ = (p1 * p2 * p3, e) ∧
    decodeFact e (p1 * p2 * p3) = some ⟨a, b, c⟩ := by
  constructor
  · simp only [encodeFact, getPrime, hla, hlb, hlc, hma, hmb, hmc]
  · have hpos : 1 ≤ p1 * p2 * p3 := by
      have := h1.pos
      have := h2.pos
      have := h3.pos
      exact Nat.mul_pos (Nat.mul_pos h1.pos h2.pos) h3.pos
    have hsmall : ∀ q, Nat.Prime q → q ∣ p1 * p2 * p3 → q ≤ 997 := by
      intro q hq hqd
      rcases (Nat.Prime.dvd_mul hq).mp hqd with hd | hd
      · rcases (Nat.Prime.dvd_mul hq).mp hd with hd2 | hd2
        · have := (Nat.prime_dvd_prime_iff_eq hq h1).mp hd2
          omega
        · have := (Nat.prime_dvd_prime_iff_eq hq h2).mp hd2
          omega
      · have := (Nat.prime_dvd_prime_iff_eq hq h3).mp hd
        omega
    have hfac : factorize e.primeCalc (p1 * p2 * p3) = some [p1, p2, p3] := by
      rw [hpc, factorize_correct _ hpos hsmall,
        primeFactorsList_three p1 p2 p3 h1 h2 h3 (le_of_lt h12) (le_of_lt h23)]
    simp only [decodeFact, hfac, getConceptName, hra, hrb, hrc, hae, hbe, hce,
      factNew, hla, hlb, hlc, Bool.false_eq_true, if_false]

/-- A registered encoder state for the C2 witness. -/
def c2Witness : Encoder :=
  { primeCalc := primeCalculatorNew
    conceptToPrime := [("a", 3), ("b", 5), ("c", 7)]
    primeToConceptCache := [(3, "a"), (5, "b"), (7, "c")]
    nextPrimeIndex := 4
    variablePrime := 2 }

/-- Witness for C2 at the fact `(a, b, c)` with primes `3 * 5 * 7`. -/
theorem c2_roundtrip_witness :
    encodeFact c2Witness ⟨"a", "b", "c"⟩ = (3 * 5 * 7, c2Witness) ∧
    decodeFact c2Witness (3 * 5 * 7) = some ⟨"a", "b", "c"⟩ :=
  c2_roundtrip_amended c2Witness "a" "b" "c" 3 5 7 rfl rfl rfl rfl rfl rfl rfl
    rfl rfl rfl rfl rfl rfl (by decide) (by decide) (by decide)
    (by decide) (by decide) (by decide)

/-! ### C3, amended -/

/-- C3 (amended): with a single self-referential standard rule (its one
condition encoding equals its conclusion encoding) and an otherwise empty
store, `deduce` on the conclusion fact terminates with result `false` and
the explanation `Could not deduce: ...`; the internally generated
`Circular reasoning detected` explanation is discarded by the conditions
loop.  Encoder and knowledge base are returned unchanged. -/
theorem c3_self_rule_amended (e : Encoder) (kb : KnowledgeBase) (q q' : Fact) (E : Nat)
    (henc : encodeFact e q = (E, e))
    (hdec : decodeFact e E = some q')
    (henc' : encodeFact e q' = (E, e))
    (hrules : kb.rules = [EncRule.standard [E] E])
    (hfe : kb.factEncodings = [])
    (hfacts : kb.facts = [])
    (n : Nat) :
    (deduce (n + 3) e kb q).map (fun r => (r.1.enc, r.1.kb, r.2)) =
      some (e, kb, false, "Could not deduce: " ++ Fact.toString q) := by
  have h3 : n + 3 = n + 2 + 1 := rfl
  rw [deduce, h3, deduceAux]
  dsimp only
  rw [henc]
  dsimp only
  rw [if_neg (by simp [List.contains_nil])]
  rw [hfe]
  rw [if_neg (by simp [List.contains_nil])]
  rw [hrules, quantLoop_std, quantLoop_nil]
  dsimp only
  rw [hrules, stdLoop_std_match]
  rw [condLoop_cons_some _ _ _ _ _ q' hdec]
  by_cases hq : q'.toString = q.toString
  · -- the decoded condition has the same string key as the query:
    -- the recursive call hits the cycle guard immediately
    have hinner : deduceAux (n + 2) ⟨e, kb, [q.toString]⟩ q' =
        some (⟨e, kb, [q.toString]⟩, false,
          "Circular reasoning detected: " ++ Fact.toString q') := by
      have h2 : n + 2 = n + 1 + 1 := rfl
      rw [h2, deduceAux]
      dsimp only
      rw [henc']
      dsimp only
      rw [if_pos (by simp [List.contains_cons, hq])]
    rw [hinner]
    dsimp only
    rw [stdLoop_nil]
    dsimp only
    by_cases hpredq : (q.predicate == "is" || q.predicate == "part of") = true
    · rw [if_pos hpredq, hfacts, transLoop_nil]
      rfl
    · rw [if_neg hpredq]
      rfl
  · -- distinct string keys: the recursive call proceeds one more level and
    -- then fails on its own recursive call's cycle guard
    have hii : deduceAux (n + 1) ⟨e, kb, [Fact.toString q', q.toString]⟩ q' =
        some (⟨e, kb, [Fact.toString q', q.toString]⟩, false,
          "Circular reasoning detected: " ++ Fact.toString q') := by
      rw [deduceAux]
      dsimp only
      rw [henc']
      dsimp only
      rw [if_pos (by simp [List.contains_cons])]
    have hinner : deduceAux (n + 2) ⟨e, kb, [q.toString]⟩ q' =
        some (⟨e, kb, [Fact.toString q', q.toString]⟩, false,
          "Could not deduce: " ++ Fact.toString q') := by
      have h2 : n + 2 = n + 1 + 1 := rfl
      rw [h2, deduceAux]
      dsimp only
      rw [henc']
      dsimp only
      rw [if_neg (by simp [List.contains_cons, hq])]
      rw [hfe]
      rw [if_neg (by simp [List.contains_nil])]
      rw [hrules, quantLoop_std, quantLoop_nil]
      dsimp only
      rw [hrules, stdLoop_std_match]
      rw [condLoop_cons_some _ _ _ _ _ q' hdec]
      rw [hii]
      dsimp only
      rw [stdLoop_nil]
      dsimp only
      by_cases hpredq' : (q'.predicate == "is" || q'.predicate == "part of") = true
      · rw [if_pos hpredq', hfacts, transLoop_nil]
      · rw [if_neg hpredq']
    rw [hinner]
    dsimp only
    rw [stdLoop_nil]
    dsimp only
    by_cases hpredq : (q.predicate == "is" || q.predicate == "part of") = true
    · rw [if_pos hpredq, hfacts, transLoop_nil]
      rfl
    · rw [if_neg hpredq]
      rfl

/-- Encoder for the C3 witness: `a`, `likes`, `b` registered with primes
3, 5, 7 over the concrete sieve table. -/
def c3WitnessEnc : Encoder :=
  { primeCalc := ⟨sievePrimes⟩
    conceptToPrime := [("a", 3), ("likes", 5), ("b", 7)]
    primeToConceptCache := [(3, "a"), (5, "likes"), (7, "b")]
    nextPrimeIndex := 3
    variablePrime := 2 }

/-- Store for the C3 witness: only the self-referential rule
`IF (a likes b) THEN (a likes b)`, encoded as `105 → 105`. -/
def c3WitnessKb : KnowledgeBase := ⟨[], [EncRule.standard [105] 105], []⟩

/-- Witness for C3 at the self-referential rule over `a likes b`. -/
theorem c3_self_rule_witness :
    (deduce 3 c3WitnessEnc c3WitnessKb ⟨"a", "likes", "b"⟩).map
        (fun r => (r.1.enc, r.1.kb, r.2)) =
      some (c3WitnessEnc, c3WitnessKb, false,
        "Could not deduce: " ++ Fact.toString ⟨"a", "likes", "b"⟩) :=
  c3_self_rule_amended c3WitnessEnc c3WitnessKb ⟨"a", "likes", "b"⟩
    ⟨"a", "likes", "b"⟩ 105 (by decide) (by decide) (by decide) rfl rfl rfl 0

/-! ### C9 -/

/-- C9: the visited set is shared across branches of one `deduce` call and
never shrinks.  With a standard rule whose condition list contains the
same encoding twice, the second evaluation of the condition hits the
cycle guard even though its first evaluation just succeeded as a direct
fact, so `deduce` of the rule conclusion fails. -/
theorem c9_duplicate_condition (e : Encoder) (kb : KnowledgeBase) (q c : Fact)
    (qe ce : Nat) (n : Nat)
    (hencq : encodeFact e q = (qe, e))
    (hdecc : decodeFact e ce = some c)
    (hencc : encodeFact e c = (ce, e))
    (hrules : kb.rules = [EncRule.standard [ce, ce] qe])
    (hqe : kb.factEncodings.contains qe = false)
    (hce : kb.factEncodings.contains ce = true)
    (hcq : Fact.toString c ≠ Fact.toString q)
    (hpred : (q.predicate == "is" || q.predicate == "part of") = false) :
    (deduce (n + 2) e kb q).map (fun r => (r.1.enc, r.1.kb, r.2)) =
      some (e, kb, false, "Could not deduce: " ++ Fact.toString q) := by
  have h2 : n + 2 = n + 1 + 1 := rfl
  rw [deduce, h2, deduceAux]
  dsimp only
  rw [hencq]
  dsimp only
  rw [if_neg (by simp [List.contains_nil])]
  have hqe' : ¬ kb.factEncodings.contains qe = true := by
    rw [hqe]
    exact Bool.false_ne_true
  rw [if_neg hqe']
  rw [hrules, quantLoop_std, quantLoop_nil]
  dsimp only
  rw [hrules, stdLoop_std_match]
  rw [condLoop_cons_some _ _ _ _ _ c hdecc]
  have hfirst : deduceAux (n + 1) ⟨e, kb, [Fact.toString q]⟩ c =
      some (⟨e, kb, [Fact.toString c, Fact.toString q]⟩, true,
        "Direct fact in knowledge base: " ++ Fact.toString c) := by
    rw [deduceAux]
    dsimp only
    rw [hencc]
    dsimp only
    rw [if_neg (by simp [List.contains_cons, hcq])]
    rw [if_pos hce]
  rw [hfirst]
  dsimp only
  rw [condLoop_cons_some _ _ _ _ _ c hdecc]
  have hsecond : deduceAux (n + 1) ⟨e, kb, [Fact.toString c, Fact.toString q]⟩ c =
      some (⟨e, kb, [Fact.toString c, Fact.toString q]⟩, false,
        "Circular reasoning detected: " ++ Fact.toString c) := by
    rw [deduceAux]
    dsimp only
    rw [hencc]
    dsimp only
    rw [if_pos (by simp [List.contains_cons])]
  rw [hsecond]
  dsimp only
  rw [stdLoop_nil]
  dsimp only
  rw [if_neg (by simp [hpred])]
  rfl

/-- Encoder for the C9 witness: `a likes b` is the stored condition fact
(encoding 105), `x likes y` the queried conclusion (encoding 715). -/
def c9WitnessEnc : Encoder :=
  { primeCalc := ⟨sievePrimes⟩
    conceptToPrime := [("a", 3), ("likes", 5), ("b", 7), ("x", 11), ("y", 13)]
    primeToConceptCache := [(3, "a"), (5, "likes"), (7, "b"), (11, "x"), (13, "y")]
    nextPrimeIndex := 5
    variablePrime := 2 }

/-- Store for the C9 witness: the fact `a likes b` and the rule whose two
conditions are both that fact, concluding `x likes y`. -/
def c9WitnessKb : KnowledgeBase :=
  ⟨[105], [EncRule.standard [105, 105] 715], [⟨"a", "likes", "b"⟩]⟩

/-- Witness for C9: the duplicated stored condition still makes the
deduction fail. -/
theorem c9_duplicate_condition_witness :
    (deduce 2 c9WitnessEnc c9WitnessKb ⟨"x", "likes", "y"⟩).map
        (fun r => (r.1.enc, r.1.kb, r.2)) =
      some (c9WitnessEnc, c9WitnessKb, false,
        "Could not deduce: " ++ Fact.toString ⟨"x", "likes", "y"⟩) :=
  c9_duplicate_condition c9WitnessEnc c9WitnessKb ⟨"x", "likes", "y"⟩
    ⟨"a", "likes", "b"⟩ 715 105 0 (by decide) (by decide) (by decide) rfl
    (by decide) (by decide) (by decide) (by decide)

/-! ### C8, amended -/

/-- A sentence with no terminator character is returned whole by the
sentence splitter. -/
theorem splitAux_no_term : ∀ (cs : List Char),
    (∀ ch ∈ cs, ¬(ch = '.' ∨ ch = '!' ∨ ch = '?')) →
    ∀ cur, splitAux cs false cur = [cur ++ cs] := by
  intro cs
  induction cs with
  | nil =>
    intro _ cur
    simp [splitAux]
  | cons ch rest ih =>
    intro h cur
    have hch := h ch (List.mem_cons_self _ _)
    simp only [splitAux]
    rw [if_neg hch]
    simp only [Bool.false_and]
    rw [if_neg Bool.false_ne_true]
    rw [ih (fun c hc => h c (List.mem_cons_of_mem _ hc)) (cur ++ [ch])]
    rw [List.append_assoc]
    rfl

/-- C8 (amended): a non-empty single sentence matching no template yields
exactly one `Failed to parse` line quoting the sentence in its original
case (the parser lowercases only internally; the quoted text is raw). -/
theorem c8_failed_parse_amended (e : Encoder) (kb : KnowledgeBase) (s : String)
    (hterm : ∀ ch ∈ s.data, ¬(ch = '.' ∨ ch = '!' ∨ ch = '?'))
    (hne : (jsTrim s).isEmpty = false)
    (hrule : parseRule s = none)
    (hfact : parseFact s = none) :
    learn e kb s = (e, kb, ["Failed to parse: \"" ++ s ++ "\""]) := by
  obtain ⟨data⟩ := s
  rw [learn, splitSentences]
  dsimp only
  rw [splitAux_no_term data hterm []]
  simp only [List.map, List.nil_append]
  simp only [List.filter, hne, Bool.not_false]
  simp only [learnLoop, hrule, hfact]

/-- Witness for C8 at the unparsable sentence `Xyzzy plugh`. -/
theorem c8_failed_parse_witness :
    learn conceptEncoderNew knowledgeBaseNew "Xyzzy plugh" =
      (conceptEncoderNew, knowledgeBaseNew, ["Failed to parse: \"Xyzzy plugh\""]) :=
  c8_failed_parse_amended conceptEncoderNew knowledgeBaseNew "Xyzzy plugh"
    (by decide) (by decide) (by decide) (by decide)

/-! ### C10 -/

/-- The quantified-rule pass never changes the knowledge base. -/
theorem quantLoop_kb (rec : DState → Fact → Option (DState × Bool × String))
    (hrec : ∀ s q out, rec s q = some out → out.1.kb = s.kb) (q : Fact) :
    ∀ (rs : List EncRule) (s : DState) (out : DState × Option String),
      quantLoop rec q s rs = some out → out.1.kb = s.kb := by
  intro rs
  induction rs with
  | nil =>
    intro s out h
    rw [quantLoop_nil] at h
    injection h with h1
    subst h1
    rfl
  | cons r rest ih =>
    intro s out h
    cases r with
    | standard ces ce =>
      rw [quantLoop_std] at h
      exact ih s out h
    | quant rt vp cp pp prp cond concl =>
      by_cases hcond : (q.predicate == getConceptName s.enc prp &&
          q.object == getConceptName s.enc pp) = true
      · rcases hrc : rec s (factNew q.subject "is" (getConceptName s.enc cp)) with
          _ | ⟨s', b, sub⟩
        · simp only [quantLoop, if_pos hcond, hrc] at h
          exact Option.noConfusion h
        · cases b
          · simp only [quantLoop, if_pos hcond, hrc] at h
            rw [ih s' out h]
            exact hrec s _ _ hrc
          · simp only [quantLoop, if_pos hcond, hrc] at h
            injection h with h1
            subst h1
            exact hrec s _ _ hrc
      · simp only [quantLoop, if_neg hcond] at h
        exact ih s out h

/-- The conditions loop never changes the knowledge base. -/
theorem condLoop_kb (rec : DState → Fact → Option (DState × Bool × String))
    (hrec : ∀ s q out, rec s q = some out → out.1.kb = s.kb) :
    ∀ (ces : List Nat) (s : DState) (acc : List String)
      (out : DState × Option (List String)),
      condLoop rec s ces acc = some out → out.1.kb = s.kb := by
  intro ces
  induction ces with
  | nil =>
    intro s acc out h
    rw [condLoop_nil] at h
    injection h with h1
    subst h1
    rfl
  | cons ce rest ih =>
    intro s acc out h
    rcases hd : decodeFact s.enc ce with _ | cf
    · simp only [condLoop, hd] at h
      injection h with h1
      subst h1
      rfl
    · rcases hrc : rec s cf with _ | ⟨s', b, expl⟩
      · simp only [condLoop, hd, hrc] at h
        exact Option.noConfusion h
      · cases b
        · simp only [condLoop, hd, hrc] at h
          injection h with h1
          subst h1
          exact hrec s _ _ hrc
        · simp only [condLoop, hd, hrc] at h
          rw [ih s' _ out h]
          exact hrec s _ _ hrc

/-- The standard-rule pass never changes the knowledge base. -/
theorem stdLoop_kb (rec : DState → Fact → Option (DState × Bool × String))
    (hrec : ∀ s q out, rec s q = some out → out.1.kb = s.kb) (q : Fact) (qe : Nat) :
    ∀ (rs : List EncRule) (s : DState) (out : DState × Option String),
      stdLoop rec q qe s rs = some out → out.1.kb = s.kb := by
  intro rs
  induction rs with
  | nil =>
    intro s out h
    rw [stdLoop_nil] at h
    injection h with h1
    subst h1
    rfl
  | cons r rest ih =>
    intro s out h
    cases r with
    | quant rt vp cp pp prp cond concl =>
      simp only [stdLoop] at h
      exact ih s out h
    | standard ces ce =>
      by_cases hc : (ce == qe) = true
      · rcases hcl : condLoop rec s ces [] with _ | ⟨s', _ | expls⟩
        · simp only [stdLoop, if_pos hc, hcl] at h
          exact Option.noConfusion h
        · simp only [stdLoop, if_pos hc, hcl] at h
          rw [ih s' out h]
          exact condLoop_kb rec hrec ces s [] _ hcl
        · simp only [stdLoop, if_pos hc, hcl] at h
          injection h with h1
          subst h1
          exact condLoop_kb rec hrec ces s [] _ hcl
      · simp only [stdLoop, if_neg hc] at h
        exact ih s out h

/-- The transitive pass never changes the knowledge base. -/
theorem transLoop_kb (rec : DState → Fact → Option (DState × Bool × String))
    (hrec : ∀ s q out, rec s q = some out → out.1.kb = s.kb) (q : Fact) :
    ∀ (fs : List Fact) (s : DState) (out : DState × Option String),
      transLoop rec q s fs = some out → out.1.kb = s.kb := by
  intro fs
  induction fs with
  | nil =>
    intro s out h
    rw [transLoop_nil] at h
    injection h with h1
    subst h1
    rfl
  | cons f rest ih =>
    intro s out h
    by_cases hcond : (f.subject == q.subject && f.predicate == q.predicate) = true
    · rcases hrc : rec s (factNew f.object q.predicate q.object) with _ | ⟨s', b, sub⟩
      · simp only [transLoop, if_pos hcond, hrc] at h
        exact Option.noConfusion h
      · cases b
        · simp only [transLoop, if_pos hcond, hrc] at h
          rw [ih s' out h]
          exact hrec s _ _ hrc
        · simp only [transLoop, if_pos hcond, hrc] at h
          injection h with h1
          subst h1
          exact hrec s _ _ hrc
    · simp only [transLoop, if_neg hcond] at h
      exact ih s out h

/-- `_deduce` never changes the knowledge base (fuel induction over all
four passes). -/
theorem deduceAux_kb :
    ∀ (fuel : Nat) (s : DState) (q : Fact) (out : DState × Bool × String),
      deduceAux fuel s q = some out → out.1.kb = s.kb := by
  intro fuel
  induction fuel with
  | zero =>
    intro s q out h
    exact Option.noConfusion h
  | succ fuel ih =>
    intro s q out h
    rw [deduceAux] at h
    rcases hp : encodeFact s.enc q with ⟨qe, e1⟩
    rw [hp] at h
    dsimp only at h
    by_cases hv : (s.visited.contains q.toString) = true
    · rw [if_pos hv] at h
      injection h with h1
      subst h1
      rfl
    · rw [if_neg hv] at h
      by_cases hf : (s.kb.factEncodings.contains qe) = true
      · rw [if_pos hf] at h
        injection h with h1
        subst h1
        rfl
      · rw [if_neg hf] at h
        rcases hql : quantLoop (deduceAux fuel) q
            ⟨e1, s.kb, q.toString :: s.visited⟩ s.kb.rules with _ | ⟨s3, _ | expl3⟩
        · rw [hql] at h
          exact Option.noConfusion h
        · rw [hql] at h
          dsimp only at h
          have hs3 : s3.kb = s.kb :=
            quantLoop_kb (deduceAux fuel) ih q s.kb.rules _ _ hql
          rcases hsl : stdLoop (deduceAux fuel) q qe s3 s3.kb.rules with
            _ | ⟨s4, _ | expl4⟩
          · rw [hsl] at h
            exact Option.noConfusion h
          · rw [hsl] at h
            dsimp only at h
            have hs4 : s4.kb = s3.kb :=
              stdLoop_kb (deduceAux fuel) ih q qe s3.kb.rules _ _ hsl
            by_cases hpr : (q.predicate == "is" || q.predicate == "part of") = true
            · rw [if_pos hpr] at h
              rcases htl : transLoop (deduceAux fuel) q s4 s4.kb.facts with
                _ | ⟨s5, _ | expl5⟩
              · rw [htl] at h
                exact Option.noConfusion h
              · rw [htl] at h
                dsimp only at h
                injection h with h1
                subst h1
                have hs5 : s5.kb = s4.kb :=
                  transLoop_kb (deduceAux fuel) ih q s4.kb.facts _ _ htl
                rw [hs5, hs4, hs3]
              · rw [htl] at h
                dsimp only at h
                injection h with h1
                subst h1
                have hs5 : s5.kb = s4.kb :=
                  transLoop_kb (deduceAux fuel) ih q s4.kb.facts _ _ htl
                rw [hs5, hs4, hs3]
            · rw [if_neg hpr] at h
              injection h with h1
              subst h1
              rw [hs4, hs3]
          · rw [hsl] at h
            dsimp only at h
            injection h with h1
            subst h1
            have hs4 : s4.kb = s3.kb :=
              stdLoop_kb (deduceAux fuel) ih q qe s3.kb.rules _ _ hsl
            rw [hs4, hs3]
        · rw [hql] at h
          dsimp only at h
          injection h with h1
          subst h1
          exact quantLoop_kb (deduceAux fuel) ih q s.kb.rules _ _ hql

/-- Encoder for the concrete half of C10: four concepts registered over
the concrete sieve table; the next free prime index is 4 (prime 11). -/
def c10Enc : Encoder :=
  { primeCalc := ⟨sievePrimes⟩
    conceptToPrime := [("_variable_", 2), ("a", 3), ("likes", 5), ("b", 7)]
    primeToConceptCache := [(2, "_variable_"), (3, "a"), (5, "likes"), (7, "b")]
    nextPrimeIndex := 4
    variablePrime := 2 }

/-- C10: `deduce` never changes the knowledge store's fact, fact-encoding
or rule sequences, but it is not read-only on the encoder: encoding a
query with unseen concepts appends fresh prime assignments to the
concept table, which shifts the primes later concepts receive (here
`poseidon` gets 11 before the call but 17 after it). -/
theorem c10_kb_frame_encoder_mutation :
    (∀ (fuel : Nat) (e : Encoder) (kb : KnowledgeBase) (q : Fact)
        (out : DState × Bool × String),
      deduce fuel e kb q = some out →
        out.1.kb.factEncodings = kb.factEncodings ∧
        out.1.kb.rules = kb.rules ∧
        out.1.kb.facts = kb.facts) ∧
    ((deduce 1 c10Enc knowledgeBaseNew (factNew "zeus" "likes" "hera")).map
        (fun r => r.1.enc.conceptToPrime) =
      some (c10Enc.conceptToPrime ++ [("zeus", 11), ("hera", 13)]) ∧
     (getPrime c10Enc "poseidon").1 = 11 ∧
     (deduce 1 c10Enc knowledgeBaseNew (factNew "zeus" "likes" "hera")).map
        (fun r => (getPrime r.1.enc "poseidon").1) = some 17) := by
  constructor
  · intro fuel e kb q out h
    have hkb : out.1.kb = kb := deduceAux_kb fuel ⟨e, kb, []⟩ q out h
    rw [hkb]
    exact ⟨rfl, rfl, rfl⟩
  · exact ⟨by decide, by decide, by decide⟩

/-- Witness for C10: the first conjunct applied to a concrete call. -/
theorem c10_kb_frame_witness :
    deduce 1 c10Enc knowledgeBaseNew (factNew "a" "likes" "b") =
      some (⟨c10Enc, knowledgeBaseNew, ["a likes b"]⟩, false,
        "Could not deduce: a likes b") ∧
    (DState.kb ⟨c10Enc, knowledgeBaseNew, ["a likes b"]⟩).factEncodings =
      knowledgeBaseNew.factEncodings ∧
    (DState.kb ⟨c10Enc, knowledgeBaseNew, ["a likes b"]⟩).rules =
      knowledgeBaseNew.rules ∧
    (DState.kb ⟨c10Enc, knowledgeBaseNew, ["a likes b"]⟩).facts =
      knowledgeBaseNew.facts :=
  ⟨by decide,
   c10_kb_frame_encoder_mutation.1 1 c10Enc knowledgeBaseNew
     (factNew "a" "likes" "b")
     (⟨c10Enc, knowledgeBaseNew, ["a likes b"]⟩, false,
       "Could not deduce: a likes b")
     (by decide)⟩

end ELLM
